import Mathlib

/-!
# fextract: dependency closure of a Go function

A shallow embedding of `main.go` of `lube/fextract`: the symbol index
(`gatherTopLevelDecls`), the builtin registry (`isBuiltin`), the body scan
(`extractUsedIdents`), the local-binding analysis (`getFuncParamsAndLocals`),
the direct dependencies (`dependenciesOfDecl`) and the worklist closure
(`resolveAllDependencies`).

Modelling decisions.

* `go/ast` trees are an inductive type `Node`; `inspect` lists the nodes that
  `ast.Inspect` hands to a callback that always returns `true` (depth first,
  a node before its children, children in the order of `ast.Walk`).
* Top-level declarations are compared by pointer in the Go code
  (`map[ast.Decl]bool`).  A `Decl` is therefore an address tagged with the
  dynamic type of the interface value, and a `Heap` gives the contents stored
  at each address.
* A Go `map[string]V` is an association list read by its first matching entry.
* `map[K]bool` values that only ever store `true` are the list of their keys.
* The `for len(workQueue) > 0` loop is iterated with fuel; `none` means the
  fuel ran out before the queue was empty.
-/

namespace Fextract

/-! ## The part of `go/token` and `go/ast` the program reads -/

/-- Tokens of `go/token` that occur in the nodes modelled here. -/
inductive Token where
  | ILLEGAL | ADD | SUB | MUL | QUO | AND | NOT | EQL | LSS | GTR | INC | DEC
  | ASSIGN | DEFINE | ADD_ASSIGN | SUB_ASSIGN
  | IMPORT | CONST | TYPE | VAR
  deriving DecidableEq, Repr

/-- The text of a token, `token.Token.String`. -/
def Token.String : Token → String
  | .ILLEGAL => "ILLEGAL" | .ADD => "+" | .SUB => "-" | .MUL => "*" | .QUO => "/"
  | .AND => "&" | .NOT => "!" | .EQL => "==" | .LSS => "<" | .GTR => ">"
  | .INC => "++" | .DEC => "--"
  | .ASSIGN => "=" | .DEFINE => ":=" | .ADD_ASSIGN => "+=" | .SUB_ASSIGN => "-="
  | .IMPORT => "import" | .CONST => "const" | .TYPE => "type" | .VAR => "var"

/-- An `*ast.Ident`: its name and the object the parser resolved it to
(`none` is a nil `Obj`). -/
structure Ident where
  Name : String
  Obj : Option Nat
  deriving DecidableEq, Repr

mutual
/-- Expression and statement nodes of `go/ast`.  A `*ast.BlockStmt` field is
given by its statement list; `other` is any node type not listed, with its
children in the order `ast.Walk` visits them. -/
inductive Node where
  | ident (id : Ident)
  | basicLit (Value : String)
  | compositeLit (Typ : Option Node) (Elts : List Node)
  | parenExpr (X : Node)
  | selectorExpr (X : Node) (Sel : Ident)
  | indexExpr (X : Node) (Index : Node)
  | callExpr (Fun : Node) (Args : List Node)
  | starExpr (X : Node)
  | unaryExpr (Op : Token) (X : Node)
  | binaryExpr (X : Node) (Op : Token) (Y : Node)
  | keyValueExpr (Key : Node) (Value : Node)
  | declStmt (Decl : StmtDecl)
  | exprStmt (X : Node)
  | incDecStmt (X : Node) (Tok : Token)
  | assignStmt (Lhs : List Node) (Tok : Token) (Rhs : List Node)
  | returnStmt (Results : List Node)
  | blockStmt (List : List Node)
  | ifStmt (Init : Option Node) (Cond : Node) (Body : List Node) (Else : Option Node)
  | forStmt (Init : Option Node) (Cond : Option Node) (Post : Option Node) (Body : List Node)
  | rangeStmt (Key : Option Node) (Value : Option Node) (Tok : Token) (X : Node)
      (Body : List Node)
  | other (kind : String) (children : List Node)
/-- The `ast.Decl` held by an `*ast.DeclStmt`. -/
inductive StmtDecl where
  | genDecl (d : GenDecl)
  | badDecl
/-- An `*ast.GenDecl`: import, const, type or var declaration. -/
inductive GenDecl where
  | mk (Tok : Token) (Specs : List Spec)
/-- An `ast.Spec`. -/
inductive Spec where
  | importSpec (Name : Option Ident) (Path : String)
  | valueSpec (Names : List Ident) (Typ : Option Node) (Values : List Node)
  | typeSpec (Name : Ident) (Typ : Node)
end

/-- The `Tok` field of a general declaration. -/
def GenDecl.Tok : GenDecl → Token
  | .mk t _ => t

/-- The `Specs` field of a general declaration. -/
def GenDecl.Specs : GenDecl → List Spec
  | .mk _ s => s

/-- An `*ast.Field` of a parameter or result list. -/
structure Field where
  Names : List Ident
  Typ : Node

/-- An `*ast.FieldList`. -/
structure FieldList where
  List : List Field

/-- An `*ast.FuncType`; a nil field list is `none`. -/
structure FuncType where
  Params : Option FieldList
  Results : Option FieldList

/-- An `*ast.BlockStmt`. -/
structure BlockStmt where
  List : List Node

/-- An `*ast.FuncDecl`; a nil `Body` is `none`. -/
structure FuncDecl where
  Recv : Option FieldList
  Name : Ident
  Typ : FuncType
  Body : Option BlockStmt

mutual
/-- The expression and statement nodes `ast.Inspect` passes to a callback that
always returns `true`, in visiting order.  The declarations, specs and field
lists visited on the way are not listed: the callbacks of the program test
for identifiers, assignments and declaration statements only. -/
def inspect : Node → List Node
  | .ident id => [.ident id]
  | .basicLit v => [.basicLit v]
  | .compositeLit t es =>
      .compositeLit t es :: (inspectOpt t ++ inspectList es)
  | .parenExpr x => .parenExpr x :: inspect x
  | .selectorExpr x sel => .selectorExpr x sel :: (inspect x ++ [.ident sel])
  | .indexExpr x i => .indexExpr x i :: (inspect x ++ inspect i)
  | .callExpr f as => .callExpr f as :: (inspect f ++ inspectList as)
  | .starExpr x => .starExpr x :: inspect x
  | .unaryExpr op x => .unaryExpr op x :: inspect x
  | .binaryExpr x op y => .binaryExpr x op y :: (inspect x ++ inspect y)
  | .keyValueExpr k v => .keyValueExpr k v :: (inspect k ++ inspect v)
  | .declStmt d => .declStmt d :: inspectStmtDecl d
  | .exprStmt x => .exprStmt x :: inspect x
  | .incDecStmt x t => .incDecStmt x t :: inspect x
  | .assignStmt l t r => .assignStmt l t r :: (inspectList l ++ inspectList r)
  | .returnStmt rs => .returnStmt rs :: inspectList rs
  | .blockStmt l => .blockStmt l :: inspectList l
  | .ifStmt i c b e =>
      .ifStmt i c b e ::
        (inspectOpt i ++ inspect c ++ (.blockStmt b :: inspectList b) ++ inspectOpt e)
  | .forStmt i c p b =>
      .forStmt i c p b ::
        (inspectOpt i ++ inspectOpt c ++ inspectOpt p ++ (.blockStmt b :: inspectList b))
  | .rangeStmt k v t x b =>
      .rangeStmt k v t x b ::
        (inspectOpt k ++ inspectOpt v ++ inspect x ++ (.blockStmt b :: inspectList b))
  | .other kind cs => .other kind cs :: inspectList cs
/-- Visit of a list of nodes, `walkList`. -/
def inspectList : List Node → List Node
  | [] => []
  | n :: ns => inspect n ++ inspectList ns
/-- Visit of a field that may be nil. -/
def inspectOpt : Option Node → List Node
  | none => []
  | some n => inspect n
/-- Visit of the declaration of a declaration statement. -/
def inspectStmtDecl : StmtDecl → List Node
  | .genDecl d => inspectGenDecl d
  | .badDecl => []
/-- Visit of a general declaration: its specs in order. -/
def inspectGenDecl : GenDecl → List Node
  | .mk _ specs => inspectSpecs specs
/-- Visit of a spec: names, then type, then values. -/
def inspectSpec : Spec → List Node
  | .importSpec name path =>
      (match name with | none => [] | some n => [Node.ident n]) ++ [.basicLit path]
  | .valueSpec names t vs => names.map Node.ident ++ inspectOpt t ++ inspectList vs
  | .typeSpec name t => .ident name :: inspect t
/-- Visit of a list of specs. -/
def inspectSpecs : List Spec → List Node
  | [] => []
  | s :: ss => inspectSpec s ++ inspectSpecs ss
end

/-- The nodes visited by `ast.Inspect(f.Body, ...)` for a non-nil body: the
block itself, then its statements. -/
def inspectBody (b : BlockStmt) : List Node :=
  inspect (.blockStmt b.List)

/-! ## Declarations, heap and symbol tables -/

/-- An `ast.Decl` interface value at top level: the dynamic type and the
address.  Two values are the same declaration exactly when they are equal. -/
inductive Decl where
  | funcDecl (p : Nat)
  | genDecl (p : Nat)
  | badDecl (p : Nat)
  deriving DecidableEq, Repr

/-- The contents stored at the addresses of function and general
declarations. -/
structure Heap where
  funcDecls : Nat → FuncDecl
  genDecls : Nat → GenDecl

/-- An `*ast.File`: only its top-level declarations are read. -/
structure File where
  Decls : List Decl

/-- A Go `map[string]V`. -/
abbrev GoMap (V : Type) := List (String × V)

/-- Reading `m[k]` with the comma-ok form: `none` when the key is absent. -/
def GoMap.get? {V : Type} (m : GoMap V) (k : String) : Option V :=
  List.lookup k m

/-- The assignment `m[k] = v`. -/
def GoMap.set {V : Type} (m : GoMap V) (k : String) (v : V) : GoMap V :=
  (k, v) :: m.filter (fun e => e.1 != k)

/-- The values stored in a map, one per key. -/
def GoMap.values {V : Type} (m : GoMap V) : List V :=
  (m.map Prod.fst).dedup.filterMap m.get?

/-- The four tables of top-level declarations; the values are addresses of
`*ast.FuncDecl` (funcs) and `*ast.GenDecl` (types, vars, consts). -/
structure dependencyInfo where
  funcs : GoMap Nat
  types : GoMap Nat
  vars : GoMap Nat
  consts : GoMap Nat
  deriving DecidableEq, Repr

/-- The tables as `main` creates them: four empty maps. -/
def dependencyInfo.empty : dependencyInfo :=
  { funcs := [], types := [], vars := [], consts := [] }

/-- Body of the loop over `s.Names` of a value spec of declaration `p` with
token `tok`. -/
def gatherName (tok : Token) (p : Nat) (info : dependencyInfo) (name : Ident) :
    dependencyInfo :=
  let info := if tok.String = "var" then
    { info with vars := info.vars.set name.Name p } else info
  let info := if tok.String = "const" then
    { info with consts := info.consts.set name.Name p } else info
  info

/-- Body of the loop over `d.Specs` of the general declaration at `p`. -/
def gatherSpec (tok : Token) (p : Nat) (info : dependencyInfo) : Spec → dependencyInfo
  | .typeSpec name _ => { info with types := info.types.set name.Name p }
  | .valueSpec names _ _ => names.foldl (gatherName tok p) info
  | .importSpec _ _ => info

/-- Body of the loop over `file.Decls`. -/
def gatherDecl (h : Heap) (info : dependencyInfo) : Decl → dependencyInfo
  | .funcDecl p => { info with funcs := info.funcs.set (h.funcDecls p).Name.Name p }
  | .genDecl p => (h.genDecls p).Specs.foldl (gatherSpec (h.genDecls p).Tok p) info
  | .badDecl _ => info

/-- Adds the top-level declarations of a file to the tables. -/
def gatherTopLevelDecls (h : Heap) (file : File) (info : dependencyInfo) : dependencyInfo :=
  file.Decls.foldl (gatherDecl h) info

/-- The tables after `main` has run `gatherTopLevelDecls` over the files of
the package, starting from empty maps. -/
def gatherFiles (h : Heap) (files : List File) : dependencyInfo :=
  files.foldl (fun info f => gatherTopLevelDecls h f info) dependencyInfo.empty

/-- Looks the requested function up in `funcs`; `none` is a nil result. -/
def findFunc (funcName : String) (info : dependencyInfo) : Option Nat :=
  info.funcs.get? funcName

/-! ## Builtins, identifiers and local names -/

/-- The keys of the `builtins` map (all mapped to `true`). -/
def builtins : List String :=
  ["len", "cap", "append", "make", "new", "delete", "complex", "real", "imag",
   "panic", "recover", "close", "print", "println"]

/-- Reads `builtins[name]`. -/
def isBuiltin (name : String) : Bool :=
  decide (name ∈ builtins)

/-- The callback of `extractUsedIdents` on one visited node. -/
def identOfNode : Node → Option Ident
  | .ident id => some id
  | _ => none

/-- All identifiers in the body of the function, in visiting order. -/
def extractUsedIdents (f : FuncDecl) : List Ident :=
  match f.Body with
  | none => []
  | some b => (inspectBody b).filterMap identOfNode

/-- The names of the fields of a field list that may be nil. -/
def fieldListNames : Option FieldList → List String
  | none => []
  | some fl => fl.List.flatMap (fun p => p.Names.map (fun n => n.Name))

/-- The names a value spec declares; nothing for other specs. -/
def specLocalNames : Spec → List String
  | .valueSpec names _ _ => names.map (fun n => n.Name)
  | _ => []

/-- The callback of `getFuncParamsAndLocals` on one visited node: the names
it sets in `localSymbols`. -/
def localsOfNode : Node → List String
  | .assignStmt lhs tok _ =>
      if tok = Token.DEFINE then lhs.filterMap (fun e => (identOfNode e).map (fun i => i.Name))
      else []
  | .declStmt (.genDecl d) => d.Specs.flatMap specLocalNames
  | _ => []

/-- The keys of `localSymbols`: parameter names, named results and the names
collected from the body. -/
def getFuncParamsAndLocals (f : FuncDecl) : List String :=
  fieldListNames f.Typ.Params ++ fieldListNames f.Typ.Results ++
    (match f.Body with
     | none => []
     | some b => (inspectBody b).flatMap localsOfNode)

/-- The loop of `dependenciesOfDecl` over the used identifiers. -/
def filterIdents (localSymbols : List String) (usedIdents : List Ident) : List String :=
  usedIdents.foldl
    (fun queue id =>
      if id.Name = "" ∨ isBuiltin id.Name = true ∨ id.Name ∈ localSymbols then queue
      else if id.Obj = none then queue ++ [id.Name]
      else queue)
    []

/-- The top-level names a declaration depends on: for a function, the names
of its unresolved body identifiers; nothing for any other declaration. -/
def dependenciesOfDecl (h : Heap) (d : Decl) (_info : dependencyInfo) : List String :=
  match d with
  | .funcDecl p =>
      let f := h.funcDecls p
      filterIdents (getFuncParamsAndLocals f) (extractUsedIdents f)
  | _ => []

/-! ## The worklist closure -/

/-- The local variables of `resolveAllDependencies`; `declMap` is the list of
declarations mapped to `true`. -/
structure ResolveState where
  foundDecls : List Decl
  declMap : List Decl
  workQueue : List Decl
  deriving DecidableEq, Repr

/-- Body of the loop over `newDeps`: the four table lookups for one name. -/
def lookupName (info : dependencyInfo) (st : ResolveState) (name : String) : ResolveState :=
  let st := match info.funcs.get? name with
    | some fd =>
        if Decl.funcDecl fd ∉ st.declMap then
          { declMap := Decl.funcDecl fd :: st.declMap,
            workQueue := st.workQueue ++ [Decl.funcDecl fd],
            foundDecls := st.foundDecls ++ [Decl.funcDecl fd] }
        else st
    | none => st
  let st := match info.types.get? name with
    | some td =>
        if Decl.genDecl td ∉ st.declMap then
          { st with declMap := Decl.genDecl td :: st.declMap,
                    foundDecls := st.foundDecls ++ [Decl.genDecl td] }
        else st
    | none => st
  let st := match info.vars.get? name with
    | some vd =>
        if Decl.genDecl vd ∉ st.declMap then
          { st with declMap := Decl.genDecl vd :: st.declMap,
                    foundDecls := st.foundDecls ++ [Decl.genDecl vd] }
        else st
    | none => st
  let st := match info.consts.get? name with
    | some cd =>
        if Decl.genDecl cd ∉ st.declMap then
          { st with declMap := Decl.genDecl cd :: st.declMap,
                    foundDecls := st.foundDecls ++ [Decl.genDecl cd] }
        else st
    | none => st
  st

/-- One iteration of the outer loop on a non-empty queue `d :: rest`. -/
def resolveStep (h : Heap) (info : dependencyInfo) (st : ResolveState) (d : Decl)
    (rest : List Decl) : ResolveState :=
  (dependenciesOfDecl h d info).foldl (lookupName info) { st with workQueue := rest }

/-- The loop `for len(workQueue) > 0`, run for at most `fuel` tests of the
loop condition. -/
def resolveLoop (h : Heap) (info : dependencyInfo) : Nat → ResolveState → Option ResolveState
  | 0, _ => none
  | fuel + 1, st =>
    match st.workQueue with
    | [] => some st
    | d :: rest => resolveLoop h info fuel (resolveStep h info st d rest)

/-- The state before the loop: the initial declaration is queued and marked. -/
def resolveInit (initialDecl : Decl) : ResolveState :=
  { foundDecls := [], declMap := [initialDecl], workQueue := [initialDecl] }

/-- The closure run with a given amount of fuel. -/
def resolveAllDependenciesFuel (h : Heap) (fuel : Nat) (initialDecl : Decl)
    (info : dependencyInfo) : Option (List Decl) :=
  (resolveLoop h info fuel (resolveInit initialDecl)).map (fun st => st.foundDecls)

/-- Fuel that always suffices: every entry of `funcs` is queued at most once,
the initial declaration once, and one more test finds the queue empty. -/
def resolveFuel (info : dependencyInfo) : Nat :=
  info.funcs.length + 2

/-- All declarations needed by the initial declaration, in discovery order. -/
def resolveAllDependencies (h : Heap) (initialDecl : Decl) (info : dependencyInfo) :
    Option (List Decl) :=
  resolveAllDependenciesFuel h (resolveFuel info) initialDecl info

/-- The declarations taken off the work queue during the first `fuel`
iterations, in order. -/
def dequeued (h : Heap) (info : dependencyInfo) : Nat → ResolveState → List Decl
  | 0, _ => []
  | fuel + 1, st =>
    match st.workQueue with
    | [] => []
    | d :: rest => d :: dequeued h info fuel (resolveStep h info st d rest)

/-! ## The example package -/

/-- An identifier the parser left unresolved. -/
def freeIdent (name : String) : Node :=
  .ident { Name := name, Obj := none }

/-- An identifier the parser resolved to the object at address `o`. -/
def boundIdent (name : String) (o : Nat) : Node :=
  .ident { Name := name, Obj := some o }

/-- The function `DoStuff` of `example/helpers.go`; the local `x` is resolved
by the parser, every other identifier is not. -/
def declDoStuff : FuncDecl :=
  { Recv := none
    Name := { Name := "DoStuff", Obj := some 10 }
    Typ := { Params := some { List := [] }, Results := none }
    Body := some { List := [
      .assignStmt [boundIdent "x" 20] .DEFINE [.callExpr (freeIdent "helperFunc") []],
      .exprStmt (.callExpr (freeIdent "println")
        [.basicLit "DoStuff called, MyVar =", freeIdent "MyVar"]),
      .exprStmt (.callExpr (freeIdent "println")
        [.basicLit "DoStuff: x.Field =",
         .selectorExpr (boundIdent "x" 20) { Name := "Field", Obj := none }])] } }

/-- The function `helperFunc` of `example/helpers2.go`. -/
def declHelperFunc : FuncDecl :=
  { Recv := none
    Name := { Name := "helperFunc", Obj := some 11 }
    Typ := { Params := some { List := [] },
             Results := some { List := [{ Names := [], Typ := freeIdent "MyType" }] } }
    Body := some { List := [
      .returnStmt [.compositeLit (some (freeIdent "MyType"))
        [.keyValueExpr (freeIdent "Field")
          (.binaryExpr (.basicLit "Value from helperFunc, MyConst = ") .ADD
            (.callExpr (freeIdent "string") [.callExpr (freeIdent "rune") [freeIdent "MyConst"]]))]]] } }

/-- The declaration `var MyVar = ...` printed in `output.go`. -/
def declMyVar : GenDecl :=
  .mk .VAR [.valueSpec [{ Name := "MyVar", Obj := some 12 }] none
    [.basicLit "Soy una variable global"]]

/-- The declaration `type MyType struct ...` printed in `output.go`. -/
def declMyType : GenDecl :=
  .mk .TYPE [.typeSpec { Name := "MyType", Obj := some 13 }
    (.other "StructType" [.other "FieldList" [.other "Field"
      [.ident { Name := "Field", Obj := some 14 }, freeIdent "string"]]])]

/-- The declaration `const MyConst = 42` printed in `output.go`. -/
def declMyConst : GenDecl :=
  .mk .CONST [.valueSpec [{ Name := "MyConst", Obj := some 15 }] none [.basicLit "42"]]

/-- A function declaration without parameters, results or body. -/
def declNoBody (name : String) : FuncDecl :=
  { Recv := none, Name := { Name := name, Obj := none },
    Typ := { Params := none, Results := none }, Body := none }

/-- The heap of the example package: `DoStuff` at function address 0,
`helperFunc` at 1; `MyVar`, `MyType`, `MyConst` at general addresses 0, 1, 2. -/
def exampleHeap : Heap :=
  { funcDecls := fun p =>
      match p with
      | 0 => declDoStuff
      | 1 => declHelperFunc
      | _ => declNoBody ""
    genDecls := fun p =>
      match p with
      | 0 => declMyVar
      | 1 => declMyType
      | 2 => declMyConst
      | _ => .mk .ILLEGAL [] }

/-- The files of the example package: `helpers.go`, `helpers2.go` and the file
with the three declarations that `output.go` prints after the functions. -/
def exampleFiles : List File :=
  [{ Decls := [.funcDecl 0] }, { Decls := [.funcDecl 1] },
   { Decls := [.genDecl 0, .genDecl 1, .genDecl 2] }]

/-- The symbol tables of the example package. -/
def exampleInfo : dependencyInfo :=
  { funcs := [("helperFunc", 1), ("DoStuff", 0)]
    types := [("MyType", 1)]
    vars := [("MyVar", 0)]
    consts := [("MyConst", 2)] }

/-! ## Notions used to state the properties of the closure -/

/-- Whether the declaration is a function declaration. -/
def Decl.isFunc : Decl → Bool
  | .funcDecl _ => true
  | _ => false

/-- The declarations registered under a name, in the order the loop body
tests the tables: funcs, types, vars, consts. -/
def entries (info : dependencyInfo) (name : String) : List Decl :=
  (info.funcs.get? name).toList.map Decl.funcDecl ++
  (info.types.get? name).toList.map Decl.genDecl ++
  (info.vars.get? name).toList.map Decl.genDecl ++
  (info.consts.get? name).toList.map Decl.genDecl

/-- The declaration `d` is the entry of one of the four tables under `name`. -/
def Registered (info : dependencyInfo) (name : String) (d : Decl) : Prop :=
  (∃ p, info.funcs.get? name = some p ∧ d = Decl.funcDecl p) ∨
  (∃ p, info.types.get? name = some p ∧ d = Decl.genDecl p) ∨
  (∃ p, info.vars.get? name = some p ∧ d = Decl.genDecl p) ∨
  (∃ p, info.consts.get? name = some p ∧ d = Decl.genDecl p)

/-- Marking a declaration: nothing if it is in `declMap` already; otherwise it
is marked, appended to the result and, if it is a function, queued. -/
def visit (st : ResolveState) (d : Decl) : ResolveState :=
  if d ∈ st.declMap then st
  else
    { declMap := d :: st.declMap,
      foundDecls := st.foundDecls ++ [d],
      workQueue := if d.isFunc = true then st.workQueue ++ [d] else st.workQueue }

/-- The declarations looked up while a declaration is expanded, in order. -/
def candidates (h : Heap) (info : dependencyInfo) (d : Decl) : List Decl :=
  (dependenciesOfDecl h d info).flatMap (entries info)

/-- Functions reachable from `start` by a chain of calls resolved in `funcs`:
`start` itself, and `funcs[n]` for a name `n` among the dependencies of a
reachable declaration. -/
inductive Chain (h : Heap) (info : dependencyInfo) (start : Decl) : Decl → Prop where
  | base : Chain h info start start
  | step {f : Decl} {n : String} {p : Nat} :
      Chain h info start f → n ∈ dependenciesOfDecl h f info →
      info.funcs.get? n = some p → Chain h info start (Decl.funcDecl p)

/-- A declaration is reachable from `start` when it is registered in one of
the four tables under a dependency name of a function of a chain from
`start`. -/
def Reachable (h : Heap) (info : dependencyInfo) (start d : Decl) : Prop :=
  ∃ f n, Chain h info start f ∧ n ∈ dependenciesOfDecl h f info ∧ Registered info n d

/-- All declarations stored in the four tables. -/
def tableDecls (info : dependencyInfo) : List Decl :=
  info.funcs.values.map Decl.funcDecl ++ info.types.values.map Decl.genDecl ++
  info.vars.values.map Decl.genDecl ++ info.consts.values.map Decl.genDecl

/-- The number of distinct declarations stored in the tables. -/
def declCount (info : dependencyInfo) : Nat :=
  (tableDecls info).dedup.length

/-- Termination measure of the loop relative to a universe `u` of function
declarations: the unmarked members of `u` plus the queued declarations. -/
def loopMeasure (u : List Decl) (st : ResolveState) : Nat :=
  (u.filter (fun x => decide (x ∉ st.declMap))).length + st.workQueue.length

/-- A universe covers the table when it holds every function of `funcs`. -/
def Covers (info : dependencyInfo) (u : List Decl) : Prop :=
  ∀ n p, info.funcs.get? n = some p → Decl.funcDecl p ∈ u

/-- Loop invariant of `resolveAllDependencies` for a start declaration. -/
structure Inv (h : Heap) (info : dependencyInfo) (start : Decl) (st : ResolveState) : Prop where
  map_eq : ∀ x, x ∈ st.declMap ↔ x = start ∨ x ∈ st.foundDecls
  nodup : st.foundDecls.Nodup
  start_not : start ∉ st.foundDecls
  queue_sub : ∀ x ∈ st.workQueue, x ∈ st.declMap
  queue_kind : ∀ x ∈ st.workQueue, x = start ∨ x.isFunc = true
  closed : ∀ f, f ∈ st.declMap → f ∉ st.workQueue →
    ∀ n ∈ dependenciesOfDecl h f info, ∀ d, Registered info n d → d ∈ st.declMap
  chain : ∀ x ∈ st.workQueue, Chain h info start x
  reach : ∀ d ∈ st.foundDecls, Reachable h info start d

/-- The state after `n` iterations of the outer loop (fewer if the queue
empties before). -/
def resolveIter (h : Heap) (info : dependencyInfo) : Nat → ResolveState → ResolveState
  | 0, st => st
  | n + 1, st =>
    match st.workQueue with
    | [] => st
    | d :: rest => resolveIter h info n (resolveStep h info st d rest)

/-- Every entry of `funcs` is keyed by the declared name of its function. -/
def FuncsNamed (h : Heap) (info : dependencyInfo) : Prop :=
  ∀ n p, info.funcs.get? n = some p → (h.funcDecls p).Name.Name = n

/-! ## Two mutually recursive functions -/

/-- A function without parameters whose body is the single call `callee()`,
the callee being unresolved. -/
def declCalling (name callee : String) : FuncDecl :=
  { Recv := none
    Name := { Name := name, Obj := some 1 }
    Typ := { Params := some { List := [] }, Results := none }
    Body := some { List := [.exprStmt (.callExpr (freeIdent callee) [])] } }

/-- The heap with `func A() { B() }` at function address 0 and
`func B() { A() }` at function address 1. -/
def mutualHeap : Heap :=
  { funcDecls := fun p =>
      match p with
      | 0 => declCalling "A" "B"
      | 1 => declCalling "B" "A"
      | _ => declNoBody ""
    genDecls := fun _ => .mk .ILLEGAL [] }

/-- The tables of the package that declares `A` and `B` only. -/
def mutualInfo : dependencyInfo :=
  { funcs := [("B", 1), ("A", 0)], types := [], vars := [], consts := [] }

/-! ## A top-level function named like a builtin -/

/-- The heap with `func F() { len() }` at function address 0 and a function
declared under the name `len` at function address 1. -/
def shadowHeap : Heap :=
  { funcDecls := fun p =>
      match p with
      | 0 => declCalling "F" "len"
      | 1 => declNoBody "len"
      | _ => declNoBody ""
    genDecls := fun _ => .mk .ILLEGAL [] }

/-- The single file of the package of `shadowHeap`. -/
def shadowFiles : List File :=
  [{ Decls := [.funcDecl 0, .funcDecl 1] }]

/-! ## Functions without statements -/

/-- The parameter list `(v MyType)`. -/
def paramsV : FieldList :=
  { List := [{ Names := [{ Name := "v", Obj := some 2 }], Typ := freeIdent "MyType" }] }

/-- The heap with a bodiless `func Ext(v MyType) MyType` at function address 0
and `func G(v MyType) (r MyType) {}` at function address 1. -/
def hollowHeap : Heap :=
  { funcDecls := fun p =>
      match p with
      | 0 =>
        { Recv := none
          Name := { Name := "Ext", Obj := some 1 }
          Typ := { Params := some paramsV,
                   Results := some { List := [{ Names := [], Typ := freeIdent "MyType" }] } }
          Body := none }
      | 1 =>
        { Recv := none
          Name := { Name := "G", Obj := some 3 }
          Typ := { Params := some paramsV,
                   Results := some { List := [{ Names := [{ Name := "r", Obj := some 5 }],
                                                Typ := freeIdent "MyType" }] } }
          Body := some { List := [] } }
      | _ => declNoBody ""
    genDecls := fun p =>
      match p with
      | 1 => declMyType
      | _ => .mk .ILLEGAL [] }

/-! ## Declared names -/

/-- The four tables of `dependencyInfo`. -/
inductive Kind where
  | funcs | types | vars | consts
  deriving DecidableEq, Repr

/-- The table of a kind. -/
def dependencyInfo.table (info : dependencyInfo) : Kind → GoMap Nat
  | .funcs => info.funcs
  | .types => info.types
  | .vars => info.vars
  | .consts => info.consts

/-- The address of a declaration. -/
def Decl.addr : Decl → Nat
  | .funcDecl p => p
  | .genDecl p => p
  | .badDecl p => p

/-- The names a spec of a general declaration with token `tok` declares with
kind `k`: the name of a type spec is a type name; the names of a value spec
are variable names under `var` and constant names under `const`. -/
def specNames (tok : Token) (k : Kind) : Spec → List String
  | .typeSpec name _ => if k = Kind.types then [name.Name] else []
  | .valueSpec names _ _ =>
      if (k = Kind.vars ∧ tok = Token.VAR) ∨ (k = Kind.consts ∧ tok = Token.CONST) then
        names.map (fun n => n.Name)
      else []
  | .importSpec _ _ => []

/-- The names a top-level declaration declares with kind `k`. -/
def declaredNames (h : Heap) (k : Kind) : Decl → List String
  | .funcDecl p => if k = Kind.funcs then [(h.funcDecls p).Name.Name] else []
  | .genDecl p => (h.genDecls p).Specs.flatMap (specNames (h.genDecls p).Tok k)
  | .badDecl _ => []

/-- The top-level declarations of a list of files, in processing order. -/
def topLevelDecls (files : List File) : List Decl :=
  files.flatMap (fun f => f.Decls)

/-! ## Redeclared names -/

/-- The heap with the grouped declaration `var ( a = 1; b = 2 )` at general
address 0 and `var a = 3` at general address 1. -/
def groupHeap : Heap :=
  { funcDecls := fun _ => declNoBody ""
    genDecls := fun p =>
      match p with
      | 0 => .mk .VAR [.valueSpec [{ Name := "a", Obj := some 1 }] none [.basicLit "1"],
                       .valueSpec [{ Name := "b", Obj := some 2 }] none [.basicLit "2"]]
      | 1 => .mk .VAR [.valueSpec [{ Name := "a", Obj := some 3 }] none [.basicLit "3"]]
      | _ => .mk .ILLEGAL [] }

/-- The heap with two bodiless functions, both declared under the name `F`,
at function addresses 0 and 1. -/
def clashHeap : Heap :=
  { funcDecls := fun _ => declNoBody "F"
    genDecls := fun _ => .mk .ILLEGAL [] }

/-! ## Discovery order -/

/-- The members of a list that are not in `seen` and not earlier in the list,
in order of first occurrence. -/
def fresh (seen : List Decl) : List Decl → List Decl
  | [] => []
  | c :: cs => if c ∈ seen then fresh seen cs else c :: fresh (c :: seen) cs

/-! ## Local declarations -/

/-- The names a spec of a local declaration introduces: the names of a value
spec and the name of a type spec. -/
def specIntroducedSpecNames : Spec → List String
  | .valueSpec names _ _ => names.map (fun n => n.Name)
  | .typeSpec name _ => [name.Name]
  | .importSpec _ _ => []

/-- The names a statement introduces in the words of the specification, "by a
defining assignment or by an explicit local declaration": the identifiers on
the left of a `:=` assignment, and every name declared by a declaration
statement. -/
def specIntroducedNames : Node → List String
  | .assignStmt lhs tok _ =>
      if tok = Token.DEFINE then lhs.filterMap (fun e => (identOfNode e).map (fun i => i.Name))
      else []
  | .declStmt (.genDecl d) => d.Specs.flatMap specIntroducedSpecNames
  | _ => []

/-- The body `{ type T int }`. -/
def localTypeBody : BlockStmt :=
  { List := [.declStmt (.genDecl (.mk .TYPE
      [.typeSpec { Name := "T", Obj := some 1 } (freeIdent "int")]))] }

/-- The function `func H() { type T int }`. -/
def declLocalType : FuncDecl :=
  { Recv := none
    Name := { Name := "H", Obj := some 2 }
    Typ := { Params := some { List := [] }, Results := none }
    Body := some localTypeBody }

/-- The function
`func N(p int) (r int) { if p { for { x := 1; var y int } }; return }`. -/
def declNested : FuncDecl :=
  { Recv := none
    Name := { Name := "N", Obj := some 1 }
    Typ := { Params := some { List := [{ Names := [{ Name := "p", Obj := some 2 }],
                                         Typ := freeIdent "int" }] },
             Results := some { List := [{ Names := [{ Name := "r", Obj := some 3 }],
                                          Typ := freeIdent "int" }] } }
    Body := some { List := [
      .ifStmt none (boundIdent "p" 2)
        [.forStmt none none none
          [.assignStmt [boundIdent "x" 4] .DEFINE [.basicLit "1"],
           .declStmt (.genDecl (.mk .VAR
             [.valueSpec [{ Name := "y", Obj := some 5 }] (some (freeIdent "int")) []]))]]
        none,
      .returnStmt []] } }

/-! ## Lemmas on maps -/

theorem lookup_mem {V : Type} (m : GoMap V) (k : String) (v : V)
    (hk : m.get? k = some v) : (k, v) ∈ m := by
  induction m with
  | nil => simp [GoMap.get?] at hk
  | cons e m ih =>
    obtain ⟨k', v'⟩ := e
    simp only [GoMap.get?, List.lookup_cons] at hk
    by_cases hkk : k = k'
    · subst hkk
      simp at hk
      simp [hk]
    · have : (k == k') = false := by simpa using hkk
      rw [this] at hk
      exact List.mem_cons_of_mem _ (ih hk)

theorem get_mem_values {V : Type} (m : GoMap V) (k : String) (v : V)
    (hk : m.get? k = some v) : v ∈ m.values := by
  unfold GoMap.values
  rw [List.mem_filterMap]
  refine ⟨k, ?_, hk⟩
  rw [List.mem_dedup, List.mem_map]
  exact ⟨(k, v), lookup_mem m k v hk, rfl⟩

/-! ## The loop body as a sequence of visits -/

theorem lookupName_eq (info : dependencyInfo) (st : ResolveState) (name : String) :
    lookupName info st name = (entries info name).foldl visit st := by
  unfold lookupName entries
  cases info.funcs.get? name <;> cases info.types.get? name <;>
    cases info.vars.get? name <;> cases info.consts.get? name <;>
    simp [visit, Decl.isFunc]

theorem foldl_lookupName (info : dependencyInfo) (names : List String) (st : ResolveState) :
    names.foldl (lookupName info) st = (names.flatMap (entries info)).foldl visit st := by
  induction names generalizing st with
  | nil => rfl
  | cons n ns ih =>
    simp only [List.foldl_cons, List.flatMap_cons, List.foldl_append]
    rw [ih, lookupName_eq]

theorem resolveStep_eq (h : Heap) (info : dependencyInfo) (st : ResolveState) (d : Decl)
    (rest : List Decl) :
    resolveStep h info st d rest =
      (candidates h info d).foldl visit { st with workQueue := rest } := by
  unfold resolveStep candidates
  exact foldl_lookupName info _ _

/-! ## What a sequence of visits does to the state -/

theorem visit_declMap (st : ResolveState) (d x : Decl) :
    x ∈ (visit st d).declMap ↔ x ∈ st.declMap ∨ x = d := by
  unfold visit
  split
  · constructor
    · intro hx; exact Or.inl hx
    · rintro (hx | rfl)
      · exact hx
      · assumption
  · simp only [List.mem_cons]
    tauto

theorem visit_found (st : ResolveState) (d x : Decl) :
    x ∈ (visit st d).foundDecls ↔ x ∈ st.foundDecls ∨ (x = d ∧ x ∉ st.declMap) := by
  unfold visit
  split
  · constructor
    · intro hx; exact Or.inl hx
    · rintro (hx | ⟨rfl, hn⟩)
      · exact hx
      · contradiction
  · rename_i hd
    simp only [List.mem_append, List.mem_singleton]
    constructor
    · rintro (hx | rfl)
      · exact Or.inl hx
      · exact Or.inr ⟨rfl, hd⟩
    · rintro (hx | ⟨rfl, _⟩)
      · exact Or.inl hx
      · exact Or.inr rfl

theorem visit_queue (st : ResolveState) (d x : Decl) :
    x ∈ (visit st d).workQueue ↔
      x ∈ st.workQueue ∨ (x = d ∧ x ∉ st.declMap ∧ x.isFunc = true) := by
  unfold visit
  split
  · constructor
    · intro hx; exact Or.inl hx
    · rintro (hx | ⟨rfl, hn, _⟩)
      · exact hx
      · contradiction
  · rename_i hd
    by_cases hf : d.isFunc = true
    · simp only [hf, if_true, List.mem_append, List.mem_singleton]
      constructor
      · rintro (hx | rfl)
        · exact Or.inl hx
        · exact Or.inr ⟨rfl, hd, hf⟩
      · rintro (hx | ⟨rfl, _, _⟩)
        · exact Or.inl hx
        · exact Or.inr rfl
    · simp only [hf, if_false]
      constructor
      · intro hx; exact Or.inl hx
      · rintro (hx | ⟨rfl, _, hf'⟩)
        · exact hx
        · exact absurd hf' hf

theorem visitAll_declMap (cs : List Decl) (st : ResolveState) (x : Decl) :
    x ∈ (cs.foldl visit st).declMap ↔ x ∈ st.declMap ∨ x ∈ cs := by
  induction cs generalizing st with
  | nil => simp
  | cons c cs ih =>
    rw [List.foldl_cons, ih, visit_declMap, List.mem_cons]
    tauto

theorem visitAll_found (cs : List Decl) (st : ResolveState) (x : Decl) :
    x ∈ (cs.foldl visit st).foundDecls ↔
      x ∈ st.foundDecls ∨ (x ∈ cs ∧ x ∉ st.declMap) := by
  induction cs generalizing st with
  | nil => simp
  | cons c cs ih =>
    rw [List.foldl_cons, ih, visit_found, visit_declMap, List.mem_cons]
    tauto

theorem visitAll_queue (cs : List Decl) (st : ResolveState) (x : Decl) :
    x ∈ (cs.foldl visit st).workQueue ↔
      x ∈ st.workQueue ∨ (x ∈ cs ∧ x ∉ st.declMap ∧ x.isFunc = true) := by
  induction cs generalizing st with
  | nil => simp
  | cons c cs ih =>
    rw [List.foldl_cons, ih, visit_queue, visit_declMap, List.mem_cons]
    tauto

theorem visit_nodup (st : ResolveState) (d : Decl)
    (hsub : ∀ x ∈ st.foundDecls, x ∈ st.declMap) (hnd : st.foundDecls.Nodup) :
    (∀ x ∈ (visit st d).foundDecls, x ∈ (visit st d).declMap) ∧
      (visit st d).foundDecls.Nodup := by
  constructor
  · intro x hx
    rw [visit_found] at hx
    rw [visit_declMap]
    rcases hx with hx | ⟨rfl, _⟩
    · exact Or.inl (hsub x hx)
    · exact Or.inr rfl
  · unfold visit
    split
    · exact hnd
    · rename_i hd
      simp only
      rw [List.nodup_append]
      refine ⟨hnd, List.nodup_singleton d, ?_⟩
      intro a ha hb
      rw [List.mem_singleton] at hb
      subst hb
      exact hd (hsub a ha)

theorem visitAll_nodup (cs : List Decl) (st : ResolveState)
    (hsub : ∀ x ∈ st.foundDecls, x ∈ st.declMap) (hnd : st.foundDecls.Nodup) :
    (cs.foldl visit st).foundDecls.Nodup := by
  induction cs generalizing st with
  | nil => exact hnd
  | cons c cs ih =>
    rw [List.foldl_cons]
    exact ih (visit st c) (visit_nodup st c hsub hnd).1 (visit_nodup st c hsub hnd).2

/-! ## The loop invariant -/

theorem mem_entries (info : dependencyInfo) (n : String) (d : Decl) :
    d ∈ entries info n ↔ Registered info n d := by
  unfold entries Registered
  simp only [List.mem_append, List.mem_map, Option.mem_toList, Option.mem_def]
  constructor
  · rintro (((⟨p, hp, rfl⟩ | ⟨p, hp, rfl⟩) | ⟨p, hp, rfl⟩) | ⟨p, hp, rfl⟩)
    · exact Or.inl ⟨p, hp, rfl⟩
    · exact Or.inr (Or.inl ⟨p, hp, rfl⟩)
    · exact Or.inr (Or.inr (Or.inl ⟨p, hp, rfl⟩))
    · exact Or.inr (Or.inr (Or.inr ⟨p, hp, rfl⟩))
  · rintro (⟨p, hp, rfl⟩ | ⟨p, hp, rfl⟩ | ⟨p, hp, rfl⟩ | ⟨p, hp, rfl⟩)
    · exact Or.inl (Or.inl (Or.inl ⟨p, hp, rfl⟩))
    · exact Or.inl (Or.inl (Or.inr ⟨p, hp, rfl⟩))
    · exact Or.inl (Or.inr ⟨p, hp, rfl⟩)
    · exact Or.inr ⟨p, hp, rfl⟩

theorem mem_candidates (h : Heap) (info : dependencyInfo) (d c : Decl) :
    c ∈ candidates h info d ↔ ∃ n ∈ dependenciesOfDecl h d info, Registered info n c := by
  unfold candidates
  simp only [List.mem_flatMap, mem_entries]

theorem registered_isFunc (info : dependencyInfo) (n : String) (c : Decl)
    (hc : Registered info n c) (hf : c.isFunc = true) :
    ∃ p, info.funcs.get? n = some p ∧ c = Decl.funcDecl p := by
  rcases hc with ⟨p, hp, rfl⟩ | ⟨p, _, rfl⟩ | ⟨p, _, rfl⟩ | ⟨p, _, rfl⟩
  · exact ⟨p, hp, rfl⟩
  all_goals simp [Decl.isFunc] at hf

theorem deps_of_not_isFunc (h : Heap) (info : dependencyInfo) (d : Decl)
    (hd : ¬ d.isFunc = true) : dependenciesOfDecl h d info = [] := by
  cases d with
  | funcDecl p => simp [Decl.isFunc] at hd
  | genDecl p => rfl
  | badDecl p => rfl

theorem inv_init (h : Heap) (info : dependencyInfo) (start : Decl) :
    Inv h info start (resolveInit start) where
  map_eq := by intro x; simp [resolveInit]
  nodup := by simp [resolveInit]
  start_not := by simp [resolveInit]
  queue_sub := by intro x hx; simpa [resolveInit] using hx
  queue_kind := by intro x hx; left; simpa [resolveInit] using hx
  closed := by
    intro f hf hnf
    simp only [resolveInit] at hf hnf
    exact absurd hf hnf
  chain := by
    intro x hx
    have : x = start := by simpa [resolveInit] using hx
    subst this
    exact Chain.base
  reach := by intro d hd; simp [resolveInit] at hd

theorem inv_step (h : Heap) (info : dependencyInfo) (start : Decl) (st : ResolveState)
    (d : Decl) (rest : List Decl) (hq : st.workQueue = d :: rest)
    (hinv : Inv h info start st) :
    Inv h info start (resolveStep h info st d rest) := by
  rw [resolveStep_eq]
  have hdq : d ∈ st.workQueue := by rw [hq]; exact List.mem_cons_self _ _
  have hrest : ∀ x ∈ rest, x ∈ st.workQueue := by
    intro x hx; rw [hq]; exact List.mem_cons_of_mem _ hx
  refine
    { map_eq := ?_, nodup := ?_, start_not := ?_, queue_sub := ?_, queue_kind := ?_,
      closed := ?_, chain := ?_, reach := ?_ }
  · intro x
    rw [visitAll_declMap, visitAll_found]
    have := hinv.map_eq x
    simp only at this ⊢
    by_cases hx : x ∈ st.declMap <;> tauto
  · apply visitAll_nodup
    · intro x hx
      exact (hinv.map_eq x).2 (Or.inr hx)
    · exact hinv.nodup
  · intro hs
    rw [visitAll_found] at hs
    rcases hs with hs | ⟨_, hs⟩
    · exact hinv.start_not hs
    · exact hs ((hinv.map_eq start).2 (Or.inl rfl))
  · intro x hx
    rw [visitAll_queue] at hx
    rw [visitAll_declMap]
    rcases hx with hx | ⟨hx, _, _⟩
    · exact Or.inl (hinv.queue_sub x (hrest x hx))
    · exact Or.inr hx
  · intro x hx
    rw [visitAll_queue] at hx
    rcases hx with hx | ⟨_, _, hx⟩
    · exact hinv.queue_kind x (hrest x hx)
    · exact Or.inr hx
  · intro f hf hnq n hn e he
    rw [visitAll_declMap]
    rw [visitAll_declMap] at hf
    rw [visitAll_queue] at hnq
    by_cases hfd : f = d
    · subst hfd
      exact Or.inr ((mem_candidates h info f e).2 ⟨n, hn, he⟩)
    · by_cases hfm : f ∈ st.declMap
      · left
        refine hinv.closed f hfm ?_ n hn e he
        intro hfq
        rw [hq, List.mem_cons] at hfq
        rcases hfq with hfq | hfq
        · exact hfd hfq
        · exact hnq (Or.inl hfq)
      · have hfc : f ∈ candidates h info d := by
          rcases hf with hf | hf
          · exact absurd hf hfm
          · exact hf
        by_cases hff : f.isFunc = true
        · exact absurd (Or.inr ⟨hfc, hfm, hff⟩) hnq
        · rw [deps_of_not_isFunc h info f hff] at hn
          simp at hn
  · intro x hx
    rw [visitAll_queue] at hx
    rcases hx with hx | ⟨hx, _, hxf⟩
    · exact hinv.chain x (hrest x hx)
    · obtain ⟨n, hn, hreg⟩ := (mem_candidates h info d x).1 hx
      obtain ⟨p, hp, rfl⟩ := registered_isFunc info n x hreg hxf
      exact Chain.step (hinv.chain d hdq) hn hp
  · intro x hx
    rw [visitAll_found] at hx
    rcases hx with hx | ⟨hx, _⟩
    · exact hinv.reach x hx
    · obtain ⟨n, hn, hreg⟩ := (mem_candidates h info d x).1 hx
      exact ⟨d, n, hinv.chain d hdq, hn, hreg⟩

theorem resolveLoop_inv (h : Heap) (info : dependencyInfo) (start : Decl) :
    ∀ (fuel : Nat) (st st' : ResolveState), Inv h info start st →
      resolveLoop h info fuel st = some st' → Inv h info start st' ∧ st'.workQueue = [] := by
  intro fuel
  induction fuel with
  | zero => intro st st' _ hr; simp [resolveLoop] at hr
  | succ fuel ih =>
    intro st st' hinv hr
    unfold resolveLoop at hr
    split at hr
    · rename_i hq
      simp only [Option.some.injEq] at hr
      subst hr
      exact ⟨hinv, hq⟩
    · rename_i d rest hq
      exact ih _ _ (inv_step h info start st d rest hq hinv) hr

/-! ## Termination -/

theorem filter_unmarked_le (u m : List Decl) (d : Decl) :
    (u.filter (fun x => decide (x ∉ d :: m))).length ≤
      (u.filter (fun x => decide (x ∉ m))).length := by
  induction u with
  | nil => simp
  | cons a u ih =>
    simp only [List.filter_cons]
    split_ifs with h1 h2 h2
    · simp only [List.length_cons]; omega
    · exfalso
      simp only [decide_eq_true_eq] at h1 h2
      exact h1 (List.mem_cons_of_mem _ (not_not.1 h2))
    · simp only [List.length_cons]; omega
    · exact ih

theorem filter_unmarked_lt (u m : List Decl) (d : Decl) (hu : d ∈ u) (hm : d ∉ m) :
    (u.filter (fun x => decide (x ∉ d :: m))).length + 1 ≤
      (u.filter (fun x => decide (x ∉ m))).length := by
  induction u with
  | nil => simp at hu
  | cons a u ih =>
    simp only [List.filter_cons]
    by_cases had : a = d
    · subst had
      have h1 : decide (a ∉ a :: m) = false := by simp
      have h2 : decide (a ∉ m) = true := by simpa using hm
      rw [h1, h2]
      have := filter_unmarked_le u m a
      simp only [Bool.false_eq_true, if_false, if_true, List.length_cons]
      omega
    · have hu' : d ∈ u := by
        rcases List.mem_cons.1 hu with hh | hh
        · exact absurd hh.symm had
        · exact hh
      have ih' := ih hu'
      split_ifs with h1 h2 h2
      · simp only [List.length_cons]; omega
      · exfalso
        simp only [decide_eq_true_eq] at h1 h2
        exact h1 (List.mem_cons_of_mem _ (not_not.1 h2))
      · exfalso
        simp only [decide_eq_true_eq] at h1 h2
        rcases List.mem_cons.1 (not_not.1 h1) with hh | hh
        · exact had hh
        · exact h2 hh
      · exact ih'

theorem visit_measure (u : List Decl) (st : ResolveState) (d : Decl)
    (hd : d.isFunc = true → d ∈ u) :
    loopMeasure u (visit st d) ≤ loopMeasure u st := by
  unfold visit
  split
  · exact Nat.le_refl _
  · rename_i hm
    unfold loopMeasure
    cases hf : d.isFunc with
    | true =>
      have := filter_unmarked_lt u st.declMap d (hd hf) hm
      simp only [if_true, List.length_append, List.length_singleton]
      omega
    | false =>
      have := filter_unmarked_le u st.declMap d
      simp only [Bool.false_eq_true, if_false]
      omega

theorem visitAll_measure (u : List Decl) (cs : List Decl) (st : ResolveState)
    (hcs : ∀ c ∈ cs, c.isFunc = true → c ∈ u) :
    loopMeasure u (cs.foldl visit st) ≤ loopMeasure u st := by
  induction cs generalizing st with
  | nil => exact Nat.le_refl _
  | cons c cs ih =>
    rw [List.foldl_cons]
    have h1 := ih (visit st c) (fun x hx => hcs x (List.mem_cons_of_mem _ hx))
    have h2 := visit_measure u st c (hcs c (List.mem_cons_self _ _))
    omega

theorem step_measure (h : Heap) (info : dependencyInfo) (u : List Decl) (hu : Covers info u)
    (st : ResolveState) (d : Decl) (rest : List Decl) (hq : st.workQueue = d :: rest) :
    loopMeasure u (resolveStep h info st d rest) + 1 ≤ loopMeasure u st := by
  rw [resolveStep_eq]
  have h1 := visitAll_measure u (candidates h info d) { st with workQueue := rest } (by
    intro c hc hf
    obtain ⟨n, _, hreg⟩ := (mem_candidates h info d c).1 hc
    obtain ⟨p, hp, rfl⟩ := registered_isFunc info n c hreg hf
    exact hu n p hp)
  have h2 : loopMeasure u { st with workQueue := rest } + 1 = loopMeasure u st := by
    simp only [loopMeasure, hq, List.length_cons]
    omega
  omega

theorem resolveLoop_some (h : Heap) (info : dependencyInfo) (u : List Decl)
    (hu : Covers info u) :
    ∀ (fuel : Nat) (st : ResolveState), loopMeasure u st < fuel →
      ∃ st', resolveLoop h info fuel st = some st' := by
  intro fuel
  induction fuel with
  | zero => intro st hlt; omega
  | succ fuel ih =>
    intro st hlt
    unfold resolveLoop
    split
    · exact ⟨st, rfl⟩
    · rename_i d rest hq
      have := step_measure h info u hu st d rest hq
      exact ih _ (by omega)

theorem resolveLoop_mono (h : Heap) (info : dependencyInfo) :
    ∀ (fuel k : Nat) (st st' : ResolveState), resolveLoop h info fuel st = some st' →
      resolveLoop h info (fuel + k) st = some st' := by
  intro fuel
  induction fuel with
  | zero => intro k st st' hr; simp [resolveLoop] at hr
  | succ fuel ih =>
    intro k st st' hr
    rw [Nat.add_right_comm]
    unfold resolveLoop at hr ⊢
    split
    · rename_i hq
      simpa [hq] using hr
    · rename_i d rest hq
      simp only [hq] at hr
      exact ih k _ _ hr

theorem dequeued_length (h : Heap) (info : dependencyInfo) (u : List Decl)
    (hu : Covers info u) :
    ∀ (fuel : Nat) (st : ResolveState), (dequeued h info fuel st).length ≤ loopMeasure u st := by
  intro fuel
  induction fuel with
  | zero => intro st; simp [dequeued]
  | succ fuel ih =>
    intro st
    unfold dequeued
    split
    · simp
    · rename_i d rest hq
      have h1 := step_measure h info u hu st d rest hq
      have h2 := ih (resolveStep h info st d rest)
      simp only [List.length_cons]
      omega

theorem measure_init (u : List Decl) (start : Decl) :
    loopMeasure u (resolveInit start) ≤ u.length + 1 := by
  unfold loopMeasure resolveInit
  have := List.length_filter_le (fun x => decide (x ∉ [start])) u
  simp only [List.length_singleton]
  omega

theorem covers_funcs (info : dependencyInfo) :
    Covers info (info.funcs.map (fun e => Decl.funcDecl e.2)) := by
  intro n p hp
  rw [List.mem_map]
  exact ⟨(n, p), lookup_mem info.funcs n p hp, rfl⟩

theorem covers_tableDecls (info : dependencyInfo) :
    Covers info (tableDecls info).dedup := by
  intro n p hp
  rw [List.mem_dedup]
  unfold tableDecls
  simp only [List.mem_append, List.mem_map]
  exact Or.inl (Or.inl (Or.inl ⟨p, get_mem_values info.funcs n p hp, rfl⟩))

theorem resolve_terminates (h : Heap) (info : dependencyInfo) (start : Decl) :
    ∃ st, resolveLoop h info (resolveFuel info) (resolveInit start) = some st := by
  apply resolveLoop_some h info _ (covers_funcs info)
  have := measure_init (info.funcs.map (fun e => Decl.funcDecl e.2)) start
  simp only [List.length_map] at this
  unfold resolveFuel
  omega

/-- The closure returns a list, and the final state of the loop satisfies the
invariant with an empty queue. -/
theorem resolve_final (h : Heap) (info : dependencyInfo) (start : Decl) :
    ∃ st, resolveAllDependencies h start info = some st.foundDecls ∧
      Inv h info start st ∧ st.workQueue = [] := by
  obtain ⟨st, hst⟩ := resolve_terminates h info start
  refine ⟨st, ?_, resolveLoop_inv h info start _ _ st (inv_init h info start) hst⟩
  simp [resolveAllDependencies, resolveAllDependenciesFuel, hst]

/-! ## The symbol index -/

theorem set_get {V : Type} (m : GoMap V) (k k' : String) (v : V) :
    (m.set k v).get? k' = if k' = k then some v else m.get? k' := by
  unfold GoMap.set GoMap.get?
  rw [List.lookup_cons]
  by_cases hk : k' = k
  · subst hk; simp
  · have hb : (k' == k) = false := by simpa using hk
    rw [hb]
    simp only [hk, if_false]
    induction m with
    | nil => rfl
    | cons e m ih =>
      obtain ⟨a, b⟩ := e
      simp only [List.filter_cons]
      by_cases ha : a = k
      · subst ha
        have : (k' == a) = false := by simpa using hk
        simp [List.lookup_cons, this, ih]
      · have h2 : (a != k) = true := by simpa using ha
        simp only [h2, if_true, List.lookup_cons]
        rw [ih]

theorem gatherName_funcs (tok : Token) (p : Nat) (info : dependencyInfo) (name : Ident) :
    (gatherName tok p info name).funcs = info.funcs := by
  unfold gatherName
  split_ifs <;> rfl

theorem gatherSpec_funcs (tok : Token) (p : Nat) (info : dependencyInfo) (s : Spec) :
    (gatherSpec tok p info s).funcs = info.funcs := by
  cases s with
  | importSpec n path => rfl
  | typeSpec n t => rfl
  | valueSpec names t vs =>
    simp only [gatherSpec]
    induction names generalizing info with
    | nil => rfl
    | cons a as ih => rw [List.foldl_cons, ih, gatherName_funcs]

theorem gatherSpecs_funcs (tok : Token) (p : Nat) (specs : List Spec) (info : dependencyInfo) :
    (specs.foldl (gatherSpec tok p) info).funcs = info.funcs := by
  induction specs generalizing info with
  | nil => rfl
  | cons a as ih => rw [List.foldl_cons, ih, gatherSpec_funcs]

theorem gatherDecl_named (h : Heap) (info : dependencyInfo) (d : Decl)
    (hn : FuncsNamed h info) : FuncsNamed h (gatherDecl h info d) := by
  cases d with
  | funcDecl p =>
    intro n q hq
    simp only [gatherDecl, set_get] at hq
    split_ifs at hq with hk
    · simp only [Option.some.injEq] at hq
      subst hq
      exact hk.symm
    · exact hn n q hq
  | genDecl p =>
    intro n q hq
    simp only [gatherDecl, gatherSpecs_funcs] at hq
    exact hn n q hq
  | badDecl p => exact hn

theorem gatherTopLevelDecls_named (h : Heap) (file : File) (info : dependencyInfo)
    (hn : FuncsNamed h info) : FuncsNamed h (gatherTopLevelDecls h file info) := by
  unfold gatherTopLevelDecls
  generalize file.Decls = ds
  induction ds generalizing info with
  | nil => exact hn
  | cons d ds ih =>
    rw [List.foldl_cons]
    exact ih _ (gatherDecl_named h info d hn)

theorem gatherFiles_named (h : Heap) (files : List File) :
    FuncsNamed h (gatherFiles h files) := by
  unfold gatherFiles
  have h0 : FuncsNamed h dependencyInfo.empty := by
    intro n p hp
    simp [dependencyInfo.empty, GoMap.get?] at hp
  generalize dependencyInfo.empty = info at h0
  induction files generalizing info with
  | nil => exact h0
  | cons f fs ih =>
    rw [List.foldl_cons]
    exact ih _ (gatherTopLevelDecls_named h f info h0)

/-! ## Direct dependencies -/

theorem filterIdents_foldl (loc : List String) (ids : List Ident) (acc : List String) :
    ids.foldl
      (fun queue id =>
        if id.Name = "" ∨ isBuiltin id.Name = true ∨ id.Name ∈ loc then queue
        else if id.Obj = none then queue ++ [id.Name]
        else queue) acc =
    acc ++ (ids.filter (fun id => decide (¬ (id.Name = "" ∨ isBuiltin id.Name = true ∨
      id.Name ∈ loc)) && decide (id.Obj = none))).map (fun id => id.Name) := by
  induction ids generalizing acc with
  | nil => simp
  | cons a as ih =>
    rw [List.foldl_cons, ih, List.filter_cons]
    by_cases h1 : a.Name = "" ∨ isBuiltin a.Name = true ∨ a.Name ∈ loc
    · simp [h1]
    · by_cases h2 : a.Obj = none
      · simp [h1, h2]
      · simp [h1, h2]

theorem filterIdents_eq (loc : List String) (ids : List Ident) :
    filterIdents loc ids =
      (ids.filter (fun id => decide (¬ (id.Name = "" ∨ isBuiltin id.Name = true ∨
        id.Name ∈ loc)) && decide (id.Obj = none))).map (fun id => id.Name) := by
  unfold filterIdents
  rw [filterIdents_foldl]
  rfl

theorem mem_filterIdents (loc : List String) (ids : List Ident) (n : String) :
    n ∈ filterIdents loc ids ↔
      ∃ id ∈ ids, id.Name = n ∧ id.Name ≠ "" ∧ isBuiltin id.Name = false ∧
        id.Name ∉ loc ∧ id.Obj = none := by
  rw [filterIdents_eq, List.mem_map]
  constructor
  · rintro ⟨id, hid, rfl⟩
    rw [List.mem_filter] at hid
    obtain ⟨hmem, hc⟩ := hid
    simp only [Bool.and_eq_true, decide_eq_true_eq, not_or] at hc
    exact ⟨id, hmem, rfl, hc.1.1, by simpa using hc.1.2.1, hc.1.2.2, hc.2⟩
  · rintro ⟨id, hmem, rfl, h1, h2, h3, h4⟩
    refine ⟨id, ?_, rfl⟩
    rw [List.mem_filter]
    refine ⟨hmem, ?_⟩
    simp only [Bool.and_eq_true, decide_eq_true_eq, not_or]
    exact ⟨⟨h1, by simpa using h2, h3⟩, h4⟩

/-! ## Properties of the closure -/

theorem dequeued_kind (h : Heap) (info : dependencyInfo) (start : Decl) :
    ∀ (fuel : Nat) (st : ResolveState), Inv h info start st →
      ∀ x ∈ dequeued h info fuel st, x = start ∨ x.isFunc = true := by
  intro fuel
  induction fuel with
  | zero => intro st _ x hx; simp [dequeued] at hx
  | succ fuel ih =>
    intro st hinv x hx
    unfold dequeued at hx
    split at hx
    · simp at hx
    · rename_i d rest hq
      rcases List.mem_cons.1 hx with hxd | hxr
      · subst hxd
        exact hinv.queue_kind x (by rw [hq]; exact List.mem_cons_self _ _)
      · exact ih _ (inv_step h info start st d rest hq hinv) x hxr

theorem visit_queue_nodup (st : ResolveState) (d : Decl)
    (hsub : ∀ x ∈ st.workQueue, x ∈ st.declMap) (hnd : st.workQueue.Nodup) :
    (∀ x ∈ (visit st d).workQueue, x ∈ (visit st d).declMap) ∧
      (visit st d).workQueue.Nodup := by
  constructor
  · intro x hx
    rw [visit_queue] at hx
    rw [visit_declMap]
    rcases hx with hx | ⟨rfl, _⟩
    · exact Or.inl (hsub x hx)
    · exact Or.inr rfl
  · unfold visit
    split
    · exact hnd
    · rename_i hd
      simp only
      split
      · rw [List.nodup_append]
        refine ⟨hnd, List.nodup_singleton d, ?_⟩
        intro a ha hb
        rw [List.mem_singleton] at hb
        subst hb
        exact hd (hsub a ha)
      · exact hnd

theorem visitAll_queue_nodup (cs : List Decl) (st : ResolveState)
    (hsub : ∀ x ∈ st.workQueue, x ∈ st.declMap) (hnd : st.workQueue.Nodup) :
    (cs.foldl visit st).workQueue.Nodup := by
  induction cs generalizing st with
  | nil => exact hnd
  | cons c cs ih =>
    rw [List.foldl_cons]
    exact ih (visit st c) (visit_queue_nodup st c hsub hnd).1 (visit_queue_nodup st c hsub hnd).2

theorem dequeued_nodup (h : Heap) (info : dependencyInfo) :
    ∀ (fuel : Nat) (st : ResolveState), (∀ x ∈ st.workQueue, x ∈ st.declMap) →
      st.workQueue.Nodup →
      (dequeued h info fuel st).Nodup ∧
        ∀ x ∈ dequeued h info fuel st, x ∈ st.workQueue ∨ x ∉ st.declMap := by
  intro fuel
  induction fuel with
  | zero => intro st _ _; simp [dequeued]
  | succ fuel ih =>
    intro st hsub hnd
    unfold dequeued
    split
    · simp
    · rename_i d rest hq
      have hd : d ∈ st.declMap := hsub d (by rw [hq]; exact List.mem_cons_self _ _)
      have hrest : ∀ x ∈ rest, x ∈ st.declMap := fun x hx =>
        hsub x (by rw [hq]; exact List.mem_cons_of_mem _ hx)
      have hndr : rest.Nodup := by rw [hq] at hnd; exact (List.nodup_cons.1 hnd).2
      have hdr : d ∉ rest := by rw [hq] at hnd; exact (List.nodup_cons.1 hnd).1
      have hsub1 : ∀ x ∈ (resolveStep h info st d rest).workQueue,
          x ∈ (resolveStep h info st d rest).declMap := by
        intro x hx
        rw [resolveStep_eq] at hx ⊢
        rw [visitAll_queue] at hx
        rw [visitAll_declMap]
        rcases hx with hx | ⟨hx, _, _⟩
        · exact Or.inl (hrest x hx)
        · exact Or.inr hx
      have hnd1 : (resolveStep h info st d rest).workQueue.Nodup := by
        rw [resolveStep_eq]
        exact visitAll_queue_nodup _ _ hrest hndr
      obtain ⟨ih1, ih2⟩ := ih _ hsub1 hnd1
      have hmem : ∀ x ∈ dequeued h info fuel (resolveStep h info st d rest),
          x ∈ rest ∨ x ∉ st.declMap := by
        intro x hx
        rcases ih2 x hx with hx | hx
        · rw [resolveStep_eq, visitAll_queue] at hx
          rcases hx with hx | ⟨_, hx, _⟩
          · exact Or.inl hx
          · exact Or.inr hx
        · right
          intro hxm
          apply hx
          rw [resolveStep_eq, visitAll_declMap]
          exact Or.inl hxm
      constructor
      · rw [List.nodup_cons]
        refine ⟨?_, ih1⟩
        intro hdd
        rcases hmem d hdd with hx | hx
        · exact hdr hx
        · exact hx hd
      · intro x hx
        rcases List.mem_cons.1 hx with hx | hx
        · left; rw [hx, hq]; exact List.mem_cons_self _ _
        · rcases hmem x hx with hx | hx
          · left; rw [hq]; exact List.mem_cons_of_mem _ hx
          · exact Or.inr hx

theorem fuel_some_eq (h : Heap) (info : dependencyInfo) (start : Decl) (u : List Decl)
    (hu : Covers info u) (st : ResolveState)
    (hst : resolveLoop h info (resolveFuel info) (resolveInit start) = some st) (k : Nat) :
    resolveLoop h info (u.length + 2 + k) (resolveInit start) = some st := by
  obtain ⟨st2, hst2⟩ := resolveLoop_some h info u hu (u.length + 2 + k) (resolveInit start) (by
    have := measure_init u start
    omega)
  have h1 := resolveLoop_mono h info _ (u.length + 2 + k) _ _ hst
  have h2 := resolveLoop_mono h info _ (resolveFuel info) _ _ hst2
  rw [Nat.add_comm] at h2
  rw [h1] at h2
  rw [hst2, h2]

/-- C1. Closedness: the closure returns a list `R`, and for every declaration
`f` that is the start or a member of `R`, every name among the direct
dependencies of `f`, and each of the four tables that has an entry under that
name, the entry is the start itself or a member of `R`. -/
theorem closure_closed (h : Heap) (info : dependencyInfo) (start : Decl) :
    ∃ R, resolveAllDependencies h start info = some R ∧
      ∀ f, (f = start ∨ f ∈ R) → ∀ n ∈ dependenciesOfDecl h f info,
        (∀ p, info.funcs.get? n = some p → Decl.funcDecl p = start ∨ Decl.funcDecl p ∈ R) ∧
        (∀ p, info.types.get? n = some p → Decl.genDecl p = start ∨ Decl.genDecl p ∈ R) ∧
        (∀ p, info.vars.get? n = some p → Decl.genDecl p = start ∨ Decl.genDecl p ∈ R) ∧
        (∀ p, info.consts.get? n = some p → Decl.genDecl p = start ∨ Decl.genDecl p ∈ R) := by
  obtain ⟨st, hR, hinv, hq⟩ := resolve_final h info start
  refine ⟨st.foundDecls, hR, ?_⟩
  intro f hf n hn
  have hfm : f ∈ st.declMap := (hinv.map_eq f).2 hf
  have hfq : f ∉ st.workQueue := by rw [hq]; exact List.not_mem_nil f
  have key : ∀ d, Registered info n d → d = start ∨ d ∈ st.foundDecls := fun d hd =>
    (hinv.map_eq d).1 (hinv.closed f hfm hfq n hn d hd)
  refine ⟨?_, ?_, ?_, ?_⟩
  · intro p hp; exact key _ (Or.inl ⟨p, hp, rfl⟩)
  · intro p hp; exact key _ (Or.inr (Or.inl ⟨p, hp, rfl⟩))
  · intro p hp; exact key _ (Or.inr (Or.inr (Or.inl ⟨p, hp, rfl⟩)))
  · intro p hp; exact key _ (Or.inr (Or.inr (Or.inr ⟨p, hp, rfl⟩)))

/-- C2. Minimality: the closure returns a list `R`, and every member of `R`
is reachable: it is the entry of one of the four tables under a dependency
name of a function at the end of a chain `start = f0, f1, ..., fk` in which
each next function is the `funcs` entry of a dependency name of the one
before. -/
theorem closure_minimal (h : Heap) (info : dependencyInfo) (start : Decl) :
    ∃ R, resolveAllDependencies h start info = some R ∧
      ∀ d ∈ R, Reachable h info start d := by
  obtain ⟨st, hR, hinv, _⟩ := resolve_final h info start
  exact ⟨st.foundDecls, hR, hinv.reach⟩

/-- C3. No self-inclusion: the closure returns a list that does not contain
the start declaration. -/
theorem closure_no_self (h : Heap) (info : dependencyInfo) (start : Decl) :
    ∃ R, resolveAllDependencies h start info = some R ∧ start ∉ R := by
  obtain ⟨st, hR, hinv, _⟩ := resolve_final h info start
  exact ⟨st.foundDecls, hR, hinv.start_not⟩

/-- C4. No duplicates: the closure returns a list in which no declaration
occurs at two positions. -/
theorem closure_nodup (h : Heap) (info : dependencyInfo) (start : Decl) :
    ∃ R, resolveAllDependencies h start info = some R ∧ R.Nodup := by
  obtain ⟨st, hR, hinv, _⟩ := resolve_final h info start
  exact ⟨st.foundDecls, hR, hinv.nodup⟩

/-- C5. Termination: the loop ends with a result, the same for every amount
of fuel from `declCount info + 2` on (at most `declCount info + 1` iterations
and one last test of the loop condition); the declarations taken off the queue
are pairwise distinct and at most `declCount info + 1` many. -/
theorem closure_terminates (h : Heap) (info : dependencyInfo) (start : Decl) :
    (∃ R, resolveAllDependencies h start info = some R ∧
      ∀ k, resolveAllDependenciesFuel h (declCount info + 2 + k) start info = some R) ∧
    (∀ fuel, (dequeued h info fuel (resolveInit start)).Nodup) ∧
    (∀ fuel, (dequeued h info fuel (resolveInit start)).length ≤ declCount info + 1) := by
  refine ⟨?_, ?_, ?_⟩
  · obtain ⟨st, hst⟩ := resolve_terminates h info start
    refine ⟨st.foundDecls, by simp [resolveAllDependencies, resolveAllDependenciesFuel, hst], ?_⟩
    intro k
    have := fuel_some_eq h info start _ (covers_tableDecls info) st hst k
    simp only [resolveAllDependenciesFuel, declCount, this, Option.map_some']
  · intro fuel
    exact (dequeued_nodup h info fuel (resolveInit start)
      (by intro x hx; simpa [resolveInit] using hx) (by simp [resolveInit])).1
  · intro fuel
    have h1 := dequeued_length h info _ (covers_tableDecls info) fuel (resolveInit start)
    have h2 := measure_init (tableDecls info).dedup start
    unfold declCount
    omega

theorem resolveIter_inv (h : Heap) (info : dependencyInfo) (start : Decl) :
    ∀ (n : Nat) (st : ResolveState), Inv h info start st →
      Inv h info start (resolveIter h info n st) := by
  intro n
  induction n with
  | zero => intro st hinv; exact hinv
  | succ n ih =>
    intro st hinv
    unfold resolveIter
    split
    · exact hinv
    · rename_i d rest hq
      exact ih _ (inv_step h info start st d rest hq hinv)

theorem eq_singleton_of_nodup {l : List Decl} {c : Decl} (hnd : l.Nodup)
    (hall : ∀ x ∈ l, x = c) (hc : c ∈ l) : l = [c] := by
  cases l with
  | nil => simp at hc
  | cons x t =>
    have hx : x = c := hall x (List.mem_cons_self _ _)
    subst hx
    cases t with
    | nil => rfl
    | cons y t2 =>
      exfalso
      have hy : y = x := hall y (List.mem_cons_of_mem _ (List.mem_cons_self _ _))
      subst hy
      exact (List.nodup_cons.1 hnd).1 (List.mem_cons_self _ _)

theorem closure_pair (h : Heap) (info : dependencyInfo) (a b : Nat) (nb : String)
    (hab : a ≠ b)
    (hnb : nb ∈ dependenciesOfDecl h (Decl.funcDecl a) info)
    (hb : info.funcs.get? nb = some b)
    (hA : ∀ n ∈ dependenciesOfDecl h (Decl.funcDecl a) info, ∀ d, Registered info n d →
      d = Decl.funcDecl a ∨ d = Decl.funcDecl b)
    (hB : ∀ n ∈ dependenciesOfDecl h (Decl.funcDecl b) info, ∀ d, Registered info n d →
      d = Decl.funcDecl a ∨ d = Decl.funcDecl b) :
    resolveAllDependencies h (Decl.funcDecl a) info = some [Decl.funcDecl b] := by
  obtain ⟨st, hR, hinv, hq⟩ := resolve_final h info (Decl.funcDecl a)
  have hne : Decl.funcDecl b ≠ Decl.funcDecl a := by
    intro hc
    injection hc with hc
    exact hab hc.symm
  have hreg : ∀ f, (f = Decl.funcDecl a ∨ f = Decl.funcDecl b) →
      ∀ n ∈ dependenciesOfDecl h f info, ∀ d, Registered info n d →
        d = Decl.funcDecl a ∨ d = Decl.funcDecl b := by
    rintro f (rfl | rfl)
    · exact hA
    · exact hB
  have hchain : ∀ f, Chain h info (Decl.funcDecl a) f →
      f = Decl.funcDecl a ∨ f = Decl.funcDecl b := by
    intro f hf
    induction hf with
    | base => exact Or.inl rfl
    | step _ hn hp ih => exact hreg _ ih _ hn _ (Or.inl ⟨_, hp, rfl⟩)
  have hall : ∀ x ∈ st.foundDecls, x = Decl.funcDecl b := by
    intro x hx
    obtain ⟨f, n, hc, hn, hr⟩ := hinv.reach x hx
    rcases hreg f (hchain f hc) n hn x hr with hxa | hxb
    · subst hxa
      exact absurd hx hinv.start_not
    · exact hxb
  have hmem : Decl.funcDecl b ∈ st.foundDecls := by
    have h1 : Decl.funcDecl b ∈ st.declMap :=
      hinv.closed (Decl.funcDecl a) ((hinv.map_eq _).2 (Or.inl rfl))
        (by rw [hq]; exact List.not_mem_nil _) nb hnb _ (Or.inl ⟨b, hb, rfl⟩)
    rcases (hinv.map_eq _).1 h1 with h2 | h2
    · exact absurd h2 hne
    · exact h2
  rw [hR, eq_singleton_of_nodup hinv.nodup hall hmem]

/-- C6. Scenario A: gathering the three files of the example package gives
the table with `DoStuff`, `helperFunc`, `MyVar`, `MyType` and `MyConst`;
`DoStuff` is found at function address 0, and its closure is exactly
`helperFunc`, `MyVar`, `MyType`, `MyConst`, in this order. -/
theorem scenarioA_closure :
    gatherFiles exampleHeap exampleFiles = exampleInfo ∧
    findFunc "DoStuff" exampleInfo = some 0 ∧
    resolveAllDependencies exampleHeap (Decl.funcDecl 0) exampleInfo =
      some [Decl.funcDecl 1, Decl.genDecl 0, Decl.genDecl 1, Decl.genDecl 2] := by
  decide

/-- C7. Scenario E: when the dependencies of function `a` contain a name
under which `funcs` holds function `b`, the dependencies of `b` contain a name
under which `funcs` holds `a`, the two are different declarations and no
dependency name of either matches any other table entry, the closure of `a` is
the list holding `b` alone and the closure of `b` is the list holding `a`
alone; both runs end. -/
theorem mutual_recursion (h : Heap) (info : dependencyInfo) (a b : Nat) (na nb : String)
    (hab : a ≠ b)
    (hnb : nb ∈ dependenciesOfDecl h (Decl.funcDecl a) info)
    (hb : info.funcs.get? nb = some b)
    (hna : na ∈ dependenciesOfDecl h (Decl.funcDecl b) info)
    (ha : info.funcs.get? na = some a)
    (hA : ∀ n ∈ dependenciesOfDecl h (Decl.funcDecl a) info, ∀ d, Registered info n d →
      d = Decl.funcDecl a ∨ d = Decl.funcDecl b)
    (hB : ∀ n ∈ dependenciesOfDecl h (Decl.funcDecl b) info, ∀ d, Registered info n d →
      d = Decl.funcDecl a ∨ d = Decl.funcDecl b) :
    resolveAllDependencies h (Decl.funcDecl a) info = some [Decl.funcDecl b] ∧
    resolveAllDependencies h (Decl.funcDecl b) info = some [Decl.funcDecl a] :=
  ⟨closure_pair h info a b nb hab hnb hb hA hB,
   closure_pair h info b a na (Ne.symm hab) hna ha
     (fun n hn d hd => (hB n hn d hd).symm) (fun n hn d hd => (hA n hn d hd).symm)⟩

theorem mutual_registered (n : String) (d : Decl) (hn : n = "A" ∨ n = "B")
    (hd : Registered mutualInfo n d) : d = Decl.funcDecl 0 ∨ d = Decl.funcDecl 1 := by
  rcases hn with rfl | rfl
  · rcases hd with ⟨p, hp, rfl⟩ | ⟨p, hp, rfl⟩ | ⟨p, hp, rfl⟩ | ⟨p, hp, rfl⟩
    · have : mutualInfo.funcs.get? "A" = some 0 := by decide
      rw [this] at hp
      injection hp with hp
      subst hp
      exact Or.inl rfl
    all_goals simp [mutualInfo, GoMap.get?] at hp
  · rcases hd with ⟨p, hp, rfl⟩ | ⟨p, hp, rfl⟩ | ⟨p, hp, rfl⟩ | ⟨p, hp, rfl⟩
    · have : mutualInfo.funcs.get? "B" = some 1 := by decide
      rw [this] at hp
      injection hp with hp
      subst hp
      exact Or.inr rfl
    all_goals simp [mutualInfo, GoMap.get?] at hp

/-- Scenario E on `func A() { B() }` and `func B() { A() }`. -/
theorem mutual_recursion_witness :
    (0 ≠ 1 ∧ "B" ∈ dependenciesOfDecl mutualHeap (Decl.funcDecl 0) mutualInfo ∧
      "A" ∈ dependenciesOfDecl mutualHeap (Decl.funcDecl 1) mutualInfo) ∧
    resolveAllDependencies mutualHeap (Decl.funcDecl 0) mutualInfo = some [Decl.funcDecl 1] ∧
    resolveAllDependencies mutualHeap (Decl.funcDecl 1) mutualInfo = some [Decl.funcDecl 0] :=
  ⟨by decide,
   mutual_recursion mutualHeap mutualInfo 0 1 "A" "B" (by decide) (by decide) (by decide)
    (by decide) (by decide)
    (fun n hn d hd => by
      have hdeps : dependenciesOfDecl mutualHeap (Decl.funcDecl 0) mutualInfo = ["B"] := by
        decide
      rw [hdeps, List.mem_singleton] at hn
      exact mutual_registered n d (Or.inr hn) hd)
    (fun n hn d hd => by
      have hdeps : dependenciesOfDecl mutualHeap (Decl.funcDecl 1) mutualInfo = ["A"] := by
        decide
      rw [hdeps, List.mem_singleton] at hn
      exact mutual_registered n d (Or.inl hn) hd)⟩

theorem deps_not_builtin (h : Heap) (d : Decl) (info : dependencyInfo) (n : String)
    (hn : n ∈ dependenciesOfDecl h d info) : isBuiltin n = false := by
  cases d with
  | funcDecl p =>
    simp only [dependenciesOfDecl] at hn
    obtain ⟨id, _, rfl, _, hb, _, _⟩ := (mem_filterIdents _ _ n).1 hn
    exact hb
  | genDecl p => simp [dependenciesOfDecl] at hn
  | badDecl p => simp [dependenciesOfDecl] at hn

/-- C8. Builtin exclusion: no direct dependency of any declaration is one of
the fourteen builtin names; and for the tables gathered from any list of
files and any start, the closure returns a list that contains no function
whose declared name is a builtin name. -/
theorem builtin_exclusion (h : Heap) :
    (∀ (d : Decl) (info : dependencyInfo) (n : String), n ∈ dependenciesOfDecl h d info →
      isBuiltin n = false ∧
      n ∉ ["len", "cap", "append", "make", "new", "delete", "complex", "real", "imag",
           "panic", "recover", "close", "print", "println"]) ∧
    (∀ (files : List File) (start : Decl),
      ∃ R, resolveAllDependencies h start (gatherFiles h files) = some R ∧
        ∀ p, isBuiltin (h.funcDecls p).Name.Name = true → Decl.funcDecl p ∉ R) := by
  constructor
  · intro d info n hn
    have hb := deps_not_builtin h d info n hn
    refine ⟨hb, ?_⟩
    intro hmem
    have : isBuiltin n = true := by
      unfold isBuiltin builtins
      exact decide_eq_true hmem
    rw [hb] at this
    exact Bool.noConfusion this
  · intro files start
    obtain ⟨st, hR, hinv, _⟩ := resolve_final h (gatherFiles h files) start
    refine ⟨st.foundDecls, hR, ?_⟩
    intro p hp hmem
    obtain ⟨f, n, _, hn, hreg⟩ := hinv.reach _ hmem
    obtain ⟨q, hq, heq⟩ := registered_isFunc _ n _ hreg rfl
    injection heq with heq
    subst heq
    have hname := gatherFiles_named h files n p hq
    rw [hname] at hp
    rw [deps_not_builtin h f _ n hn] at hp
    exact Bool.noConfusion hp

/-- A function declared under the name `len` is in the gathered table and is
called by name, yet the closure of the caller is empty. -/
theorem builtin_shadow_example :
    findFunc "len" (gatherFiles shadowHeap shadowFiles) = some 1 ∧
    extractUsedIdents (shadowHeap.funcDecls 0) = [{ Name := "len", Obj := none }] ∧
    resolveAllDependencies shadowHeap (Decl.funcDecl 0) (gatherFiles shadowHeap shadowFiles) =
      some [] := by
  decide

theorem fieldListNames_mem (f : FuncDecl) (n : String)
    (hn : n ∈ fieldListNames f.Typ.Params ∨ n ∈ fieldListNames f.Typ.Results ∨
      n ∈ getFuncParamsAndLocals f) : n ∈ getFuncParamsAndLocals f := by
  rcases hn with hn | hn | hn
  · unfold getFuncParamsAndLocals
    exact List.mem_append_left _ (List.mem_append_left _ hn)
  · unfold getFuncParamsAndLocals
    exact List.mem_append_left _ (List.mem_append_right _ hn)
  · exact hn

/-- C9. Local-binding exclusion: a name that is a parameter of the function,
a named result of it, or any name collected by `getFuncParamsAndLocals`, is in
the local set and is not among the direct dependencies of the function; the
names looked up in the tables while the function is expanded are exactly its
direct dependencies. -/
theorem local_binding_exclusion (h : Heap) (p : Nat) (info : dependencyInfo) (n : String)
    (hn : n ∈ fieldListNames (h.funcDecls p).Typ.Params ∨
      n ∈ fieldListNames (h.funcDecls p).Typ.Results ∨
      n ∈ getFuncParamsAndLocals (h.funcDecls p)) :
    n ∈ getFuncParamsAndLocals (h.funcDecls p) ∧
    n ∉ dependenciesOfDecl h (Decl.funcDecl p) info ∧
    (∀ st rest, resolveStep h info st (Decl.funcDecl p) rest =
      (dependenciesOfDecl h (Decl.funcDecl p) info).foldl (lookupName info)
        { st with workQueue := rest }) := by
  have hloc := fieldListNames_mem (h.funcDecls p) n hn
  refine ⟨hloc, ?_, fun _ _ => rfl⟩
  intro hdep
  simp only [dependenciesOfDecl] at hdep
  obtain ⟨id, _, rfl, _, _, hnot, _⟩ := (mem_filterIdents _ _ n).1 hdep
  exact hnot hloc

/-- The local `x` of `DoStuff` is collected and is no dependency. -/
theorem local_binding_exclusion_witness :
    "x" ∈ getFuncParamsAndLocals (exampleHeap.funcDecls 0) ∧
    "x" ∉ dependenciesOfDecl exampleHeap (Decl.funcDecl 0) exampleInfo :=
  ⟨(local_binding_exclusion exampleHeap 0 exampleInfo "x" (Or.inr (Or.inr (by decide)))).1,
   (local_binding_exclusion exampleHeap 0 exampleInfo "x" (Or.inr (Or.inr (by decide)))).2.1⟩

/-- C10. Leaf non-expansion: a declaration that is not a function has no
direct dependencies and its closure is the empty list; and for every start,
the closure returns a list none of whose non-function members is in the work
queue after any number of iterations. -/
theorem leaf_non_expansion (h : Heap) (info : dependencyInfo) (d : Decl)
    (hd : d.isFunc = false) :
    dependenciesOfDecl h d info = [] ∧
    resolveAllDependencies h d info = some [] ∧
    (∀ start, ∃ R, resolveAllDependencies h start info = some R ∧
      ∀ x ∈ R, x.isFunc = false →
        ∀ n, x ∉ (resolveIter h info n (resolveInit start)).workQueue) := by
  have hdeps : dependenciesOfDecl h d info = [] :=
    deps_of_not_isFunc h info d (by rw [hd]; exact Bool.noConfusion)
  refine ⟨hdeps, ?_, ?_⟩
  · simp [resolveAllDependencies, resolveAllDependenciesFuel, resolveFuel, resolveLoop,
      resolveInit, resolveStep, hdeps]
  · intro start
    obtain ⟨st, hR, hinv, _⟩ := resolve_final h info start
    refine ⟨st.foundDecls, hR, ?_⟩
    intro x hx hxf n hxq
    have hinvn := resolveIter_inv h info start n (resolveInit start) (inv_init h info start)
    rcases hinvn.queue_kind x hxq with hs | hf
    · subst hs
      exact hinv.start_not hx
    · rw [hxf] at hf
      exact Bool.noConfusion hf

/-- The declaration of `MyType` in the example package is a leaf. -/
theorem leaf_non_expansion_witness :
    dependenciesOfDecl exampleHeap (Decl.genDecl 1) exampleInfo = [] ∧
    resolveAllDependencies exampleHeap (Decl.genDecl 1) exampleInfo = some [] :=
  ⟨(leaf_non_expansion exampleHeap exampleInfo (Decl.genDecl 1) rfl).1,
   (leaf_non_expansion exampleHeap exampleInfo (Decl.genDecl 1) rfl).2.1⟩

/-! ## Scenarios C and D, and the direct dependencies as a filter -/

theorem resolve_of_no_deps (h : Heap) (info : dependencyInfo) (d : Decl)
    (hdeps : dependenciesOfDecl h d info = []) :
    resolveAllDependencies h d info = some [] := by
  simp [resolveAllDependencies, resolveAllDependenciesFuel, resolveFuel, resolveLoop,
    resolveInit, resolveStep, hdeps]

theorem filterIdents_nil (loc : List String) : filterIdents loc [] = [] := rfl

/-- C11. Scenario C: a function whose body is nil or holds no statements has
no used identifiers and no direct dependencies, and its closure is the empty
list for every table. -/
theorem empty_body_closure (h : Heap) (p : Nat) (info : dependencyInfo)
    (hb : (h.funcDecls p).Body = none ∨ (h.funcDecls p).Body = some { List := [] }) :
    extractUsedIdents (h.funcDecls p) = [] ∧
    dependenciesOfDecl h (Decl.funcDecl p) info = [] ∧
    resolveAllDependencies h (Decl.funcDecl p) info = some [] := by
  have hids : extractUsedIdents (h.funcDecls p) = [] := by
    unfold extractUsedIdents
    rcases hb with hb | hb
    · rw [hb]
    · rw [hb]
      rfl
  have hdeps : dependenciesOfDecl h (Decl.funcDecl p) info = [] := by
    simp only [dependenciesOfDecl, hids, filterIdents_nil]
  exact ⟨hids, hdeps, resolve_of_no_deps h info _ hdeps⟩

/-- Scenario C on `func G(v MyType) (r MyType) {}` with `MyType` in the
table. -/
theorem empty_body_closure_witness :
    extractUsedIdents (hollowHeap.funcDecls 1) = [] ∧
    dependenciesOfDecl hollowHeap (Decl.funcDecl 1) exampleInfo = [] ∧
    resolveAllDependencies hollowHeap (Decl.funcDecl 1) exampleInfo = some [] :=
  empty_body_closure hollowHeap 1 exampleInfo (Or.inr rfl)

/-- C12. Scenario D: when every identifier of the body of a function has a
builtin name, the function has no direct dependencies and its closure is the
empty list for every table. -/
theorem intrinsics_only_closure (h : Heap) (p : Nat) (info : dependencyInfo)
    (hall : ∀ id ∈ extractUsedIdents (h.funcDecls p), isBuiltin id.Name = true) :
    dependenciesOfDecl h (Decl.funcDecl p) info = [] ∧
    resolveAllDependencies h (Decl.funcDecl p) info = some [] := by
  have hdeps : dependenciesOfDecl h (Decl.funcDecl p) info = [] := by
    rw [List.eq_nil_iff_forall_not_mem]
    intro n hn
    simp only [dependenciesOfDecl] at hn
    obtain ⟨id, hid, _, _, hb, _, _⟩ := (mem_filterIdents _ _ n).1 hn
    rw [hall id hid] at hb
    exact Bool.noConfusion hb
  exact ⟨hdeps, resolve_of_no_deps h info _ hdeps⟩

/-- Scenario D on `func F() { len() }` with a function registered under the
name `len`. -/
theorem intrinsics_only_closure_witness :
    (gatherFiles shadowHeap shadowFiles).funcs.get? "len" = some 1 ∧
    dependenciesOfDecl shadowHeap (Decl.funcDecl 0) (gatherFiles shadowHeap shadowFiles) = [] ∧
    resolveAllDependencies shadowHeap (Decl.funcDecl 0) (gatherFiles shadowHeap shadowFiles) =
      some [] :=
  ⟨by decide,
   intrinsics_only_closure shadowHeap 0 (gatherFiles shadowHeap shadowFiles) (by decide)⟩

/-- C17. The direct dependencies of a function are the names of its used
identifiers, in order and with repetitions, restricted to the occurrences
whose name is not empty, not a builtin and not a local name and whose `Obj` is
nil; they are the same for every table. -/
theorem direct_dependencies_filter (h : Heap) (p : Nat) (info : dependencyInfo) :
    dependenciesOfDecl h (Decl.funcDecl p) info =
      ((extractUsedIdents (h.funcDecls p)).filter (fun id =>
        decide (id.Name ≠ "") && !isBuiltin id.Name &&
        decide (id.Name ∉ getFuncParamsAndLocals (h.funcDecls p)) &&
        decide (id.Obj = none))).map (fun id => id.Name) ∧
    ∀ info2, dependenciesOfDecl h (Decl.funcDecl p) info2 =
      dependenciesOfDecl h (Decl.funcDecl p) info := by
  refine ⟨?_, fun _ => rfl⟩
  simp only [dependenciesOfDecl]
  rw [filterIdents_eq]
  congr 1
  apply List.filter_congr
  intro id _
  by_cases h1 : id.Name = "" <;> by_cases h2 : isBuiltin id.Name = true <;>
    by_cases h3 : id.Name ∈ getFuncParamsAndLocals (h.funcDecls p) <;> simp [h1, h2, h3]

/-! ## The symbol index as a sequence of registrations -/

theorem table_get_foldl {α : Type} (f : dependencyInfo → α → dependencyInfo)
    (names : α → List String) (p : Nat) (k : Kind) (n : String)
    (hf : ∀ info a, ((f info a).table k).get? n =
      if n ∈ names a then some p else (info.table k).get? n) :
    ∀ (l : List α) (info : dependencyInfo), ((l.foldl f info).table k).get? n =
      if n ∈ l.flatMap names then some p else (info.table k).get? n := by
  intro l
  induction l with
  | nil => intro info; simp
  | cons a l ih =>
    intro info
    rw [List.foldl_cons, ih, hf, List.flatMap_cons]
    by_cases h1 : n ∈ names a <;> by_cases h2 : n ∈ l.flatMap names <;>
      simp only [List.mem_append, h1, h2, if_true, if_false, or_self, or_true, true_or]

theorem token_var (tok : Token) : tok.String = "var" ↔ tok = Token.VAR := by
  cases tok <;> simp [Token.String]

theorem token_const (tok : Token) : tok.String = "const" ↔ tok = Token.CONST := by
  cases tok <;> simp [Token.String]

theorem gatherName_get (tok : Token) (p : Nat) (info : dependencyInfo) (id : Ident)
    (k : Kind) (n : String) :
    ((gatherName tok p info id).table k).get? n =
      if n ∈ (if (k = Kind.vars ∧ tok = Token.VAR) ∨ (k = Kind.consts ∧ tok = Token.CONST)
          then [id.Name] else []) then some p
      else (info.table k).get? n := by
  unfold gatherName
  simp only [token_var, token_const]
  by_cases hv : tok = Token.VAR
  · subst hv
    cases k <;> simp [dependencyInfo.table, set_get]
  · by_cases hc : tok = Token.CONST
    · subst hc
      cases k <;> simp [dependencyInfo.table, set_get]
    · cases k <;> simp [dependencyInfo.table, hv, hc]

theorem gatherSpec_get (tok : Token) (p : Nat) (info : dependencyInfo) (s : Spec)
    (k : Kind) (n : String) :
    ((gatherSpec tok p info s).table k).get? n =
      if n ∈ specNames tok k s then some p else (info.table k).get? n := by
  cases s with
  | importSpec name path => simp [gatherSpec, specNames]
  | typeSpec name t =>
    cases k <;> simp [gatherSpec, specNames, dependencyInfo.table, set_get]
  | valueSpec names t vs =>
    simp only [gatherSpec]
    rw [table_get_foldl (gatherName tok p) _ p k n
      (fun info a => gatherName_get tok p info a k n)]
    simp only [specNames]
    by_cases hc : (k = Kind.vars ∧ tok = Token.VAR) ∨ (k = Kind.consts ∧ tok = Token.CONST)
    · simp only [hc, if_true]
      have : (names.flatMap fun a => [a.Name]) = names.map (fun a => a.Name) := by
        induction names with
        | nil => rfl
        | cons a as ih => simp [List.flatMap_cons, ih]
      rw [this]
    · simp [hc]

theorem gatherDecl_get (h : Heap) (info : dependencyInfo) (d : Decl) (k : Kind) (n : String) :
    ((gatherDecl h info d).table k).get? n =
      if n ∈ declaredNames h k d then some d.addr else (info.table k).get? n := by
  cases d with
  | funcDecl p =>
    cases k <;> simp [gatherDecl, declaredNames, dependencyInfo.table, set_get, Decl.addr]
  | genDecl p =>
    simp only [gatherDecl, declaredNames, Decl.addr]
    exact table_get_foldl _ _ p k n
      (fun info a => gatherSpec_get (h.genDecls p).Tok p info a k n) _ info
  | badDecl p => simp [gatherDecl, declaredNames]

theorem gatherDecls_get_unchanged (h : Heap) (k : Kind) (n : String) :
    ∀ (ds : List Decl) (info : dependencyInfo), (∀ d ∈ ds, n ∉ declaredNames h k d) →
      ((ds.foldl (gatherDecl h) info).table k).get? n = (info.table k).get? n := by
  intro ds
  induction ds with
  | nil => intro info _; rfl
  | cons d ds ih =>
    intro info hds
    rw [List.foldl_cons, ih _ (fun x hx => hds x (List.mem_cons_of_mem _ hx)), gatherDecl_get,
      if_neg (hds d (List.mem_cons_self _ _))]

theorem gatherDecls_get_congr (h : Heap) (k : Kind) (n : String) :
    ∀ (ds : List Decl) (info info2 : dependencyInfo),
      (info.table k).get? n = (info2.table k).get? n →
      ((ds.foldl (gatherDecl h) info).table k).get? n =
        ((ds.foldl (gatherDecl h) info2).table k).get? n := by
  intro ds
  induction ds with
  | nil => intro info info2 he; exact he
  | cons d ds ih =>
    intro info info2 he
    rw [List.foldl_cons, List.foldl_cons]
    apply ih
    rw [gatherDecl_get, gatherDecl_get, he]

theorem gatherDecls_get_last (h : Heap) (k : Kind) (n : String) (l : List Decl) (d : Decl)
    (l3 : List Decl) (info : dependencyInfo) (hd : n ∈ declaredNames h k d)
    (hl3 : ∀ x ∈ l3, n ∉ declaredNames h k x) :
    (((l ++ d :: l3).foldl (gatherDecl h) info).table k).get? n = some d.addr := by
  rw [List.foldl_append, List.foldl_cons, gatherDecls_get_unchanged h k n l3 _ hl3,
    gatherDecl_get, if_pos hd]

theorem gatherDecls_get_origin (h : Heap) (k : Kind) (n : String) (p : Nat) :
    ∀ (ds : List Decl) (info : dependencyInfo),
      ((ds.foldl (gatherDecl h) info).table k).get? n = some p →
      (info.table k).get? n = some p ∨ ∃ d ∈ ds, n ∈ declaredNames h k d ∧ d.addr = p := by
  intro ds
  induction ds with
  | nil => intro info hp; exact Or.inl hp
  | cons d ds ih =>
    intro info hp
    rw [List.foldl_cons] at hp
    rcases ih _ hp with h1 | ⟨x, hx, hxn, hxp⟩
    · rw [gatherDecl_get] at h1
      split_ifs at h1 with hd
      · right
        refine ⟨d, List.mem_cons_self _ _, hd, ?_⟩
        simpa using h1
      · exact Or.inl h1
    · exact Or.inr ⟨x, List.mem_cons_of_mem _ hx, hxn, hxp⟩

theorem gatherDecls_get_isSome (h : Heap) (k : Kind) (n : String) :
    ∀ (ds : List Decl) (info : dependencyInfo),
      ((∃ p, (info.table k).get? n = some p) ∨ ∃ d ∈ ds, n ∈ declaredNames h k d) →
      ∃ p, ((ds.foldl (gatherDecl h) info).table k).get? n = some p := by
  intro ds
  induction ds with
  | nil =>
    intro info hp
    rcases hp with hp | ⟨d, hd, _⟩
    · exact hp
    · simp at hd
  | cons d ds ih =>
    intro info hp
    rw [List.foldl_cons]
    apply ih
    by_cases hd : n ∈ declaredNames h k d
    · left
      exact ⟨d.addr, by rw [gatherDecl_get, if_pos hd]⟩
    · rcases hp with ⟨p, hp⟩ | ⟨x, hx, hxn⟩
      · left
        exact ⟨p, by rw [gatherDecl_get, if_neg hd, hp]⟩
      · rcases List.mem_cons.1 hx with hx | hx
        · subst hx
          exact absurd hxn hd
        · exact Or.inr ⟨x, hx, hxn⟩

theorem gatherFiles_eq (h : Heap) (files : List File) :
    gatherFiles h files = (topLevelDecls files).foldl (gatherDecl h) dependencyInfo.empty := by
  unfold gatherFiles topLevelDecls
  generalize dependencyInfo.empty = info
  induction files generalizing info with
  | nil => rfl
  | cons f fs ih =>
    rw [List.foldl_cons, ih, List.flatMap_cons, List.foldl_append]
    rfl

theorem empty_get (k : Kind) (n : String) : (dependencyInfo.empty.table k).get? n = none := by
  cases k <;> rfl

/-! ## Properties of the symbol index -/

theorem specNames_funcs (tok : Token) (s : Spec) : specNames tok Kind.funcs s = [] := by
  cases s <;> simp [specNames]

theorem mem_declaredNames_funcs (h : Heap) (d : Decl) (n : String) :
    n ∈ declaredNames h Kind.funcs d ↔
      ∃ p, d = Decl.funcDecl p ∧ (h.funcDecls p).Name.Name = n := by
  cases d with
  | funcDecl p =>
    simp only [declaredNames, if_true, List.mem_singleton]
    constructor
    · intro hn; exact ⟨p, rfl, hn.symm⟩
    · rintro ⟨q, hq, hn⟩
      injection hq with hq
      subst hq
      exact hn.symm
  | genDecl p =>
    simp only [declaredNames]
    constructor
    · intro hn
      rw [List.mem_flatMap] at hn
      obtain ⟨s, _, hs⟩ := hn
      rw [specNames_funcs] at hs
      simp at hs
    · rintro ⟨q, hq, _⟩
      exact Decl.noConfusion hq
  | badDecl p =>
    simp only [declaredNames]
    constructor
    · intro hn; simp at hn
    · rintro ⟨q, hq, _⟩
      exact Decl.noConfusion hq

theorem declaredNames_genDecl (h : Heap) (k : Kind) (d : Decl) (n : String) (hk : k ≠ Kind.funcs)
    (hn : n ∈ declaredNames h k d) :
    ∃ p, d = Decl.genDecl p ∧ ∃ s ∈ (h.genDecls p).Specs, n ∈ specNames (h.genDecls p).Tok k s := by
  cases d with
  | funcDecl p => simp [declaredNames, hk] at hn
  | genDecl p =>
    simp only [declaredNames, List.mem_flatMap] at hn
    exact ⟨p, rfl, hn⟩
  | badDecl p => simp [declaredNames] at hn

theorem mem_specNames_types (tok : Token) (s : Spec) (n : String)
    (hn : n ∈ specNames tok Kind.types s) : ∃ id t, s = Spec.typeSpec id t ∧ id.Name = n := by
  cases s with
  | importSpec name path => simp [specNames] at hn
  | valueSpec names t vs => simp [specNames] at hn
  | typeSpec id t =>
    simp only [specNames, if_true, List.mem_singleton] at hn
    exact ⟨id, t, rfl, hn.symm⟩

theorem mem_specNames_vars (tok : Token) (s : Spec) (n : String)
    (hn : n ∈ specNames tok Kind.vars s) :
    tok = Token.VAR ∧ ∃ names t vs id, s = Spec.valueSpec names t vs ∧ id ∈ names ∧
      id.Name = n := by
  cases s with
  | importSpec name path => simp [specNames] at hn
  | typeSpec id t => simp [specNames] at hn
  | valueSpec names t vs =>
    by_cases ht : tok = Token.VAR
    · simp only [specNames, ht, and_self, true_and, reduceCtorEq, false_and, or_false,
        false_or, if_true, List.mem_map] at hn
      obtain ⟨id, hid, hname⟩ := hn
      exact ⟨ht, names, t, vs, id, rfl, hid, hname⟩
    · simp [specNames, ht] at hn

theorem mem_specNames_consts (tok : Token) (s : Spec) (n : String)
    (hn : n ∈ specNames tok Kind.consts s) :
    tok = Token.CONST ∧ ∃ names t vs id, s = Spec.valueSpec names t vs ∧ id ∈ names ∧
      id.Name = n := by
  cases s with
  | importSpec name path => simp [specNames] at hn
  | typeSpec id t => simp [specNames] at hn
  | valueSpec names t vs =>
    by_cases ht : tok = Token.CONST
    · simp only [specNames, ht, and_self, true_and, reduceCtorEq, false_and, or_false,
        false_or, if_true, List.mem_map] at hn
      obtain ⟨id, hid, hname⟩ := hn
      exact ⟨ht, names, t, vs, id, rfl, hid, hname⟩
    · simp [specNames, ht] at hn

theorem gatherFiles_origin (h : Heap) (files : List File) (k : Kind) (n : String) (p : Nat)
    (hp : ((gatherFiles h files).table k).get? n = some p) :
    ∃ d ∈ topLevelDecls files, n ∈ declaredNames h k d ∧ d.addr = p := by
  rw [gatherFiles_eq] at hp
  rcases gatherDecls_get_origin h k n p _ _ hp with h0 | h1
  · rw [empty_get] at h0
    exact Option.noConfusion h0
  · exact h1

theorem gatherFiles_isSome (h : Heap) (files : List File) (k : Kind) (n : String) (d : Decl)
    (hd : d ∈ topLevelDecls files) (hn : n ∈ declaredNames h k d) :
    ∃ p, ((gatherFiles h files).table k).get? n = some p := by
  rw [gatherFiles_eq]
  exact gatherDecls_get_isSome h k n _ _ (Or.inr ⟨d, hd, hn⟩)

theorem mem_topLevelDecls (files : List File) (d : Decl) :
    d ∈ topLevelDecls files ↔ ∃ f ∈ files, d ∈ f.Decls := by
  unfold topLevelDecls
  rw [List.mem_flatMap]

/-- C13. NotFound: on the tables gathered from any list of files, `findFunc`
returns nil exactly when no file holds a top-level function declaration with
the requested name; a declaration it returns is a function of one of the files
and carries the requested name; `MyType`, declared as a type only, is not
found in the example package. -/
theorem find_func_not_found (h : Heap) (files : List File) (name : String) :
    (findFunc name (gatherFiles h files) = none ↔
      ∀ f ∈ files, ∀ p, Decl.funcDecl p ∈ f.Decls → (h.funcDecls p).Name.Name ≠ name) ∧
    (∀ p, findFunc name (gatherFiles h files) = some p →
      (h.funcDecls p).Name.Name = name ∧ ∃ f ∈ files, Decl.funcDecl p ∈ f.Decls) ∧
    findFunc "MyType" (gatherFiles exampleHeap exampleFiles) = none := by
  have hsome : ∀ p, findFunc name (gatherFiles h files) = some p →
      (h.funcDecls p).Name.Name = name ∧ ∃ f ∈ files, Decl.funcDecl p ∈ f.Decls := by
    intro p hp
    obtain ⟨d, hd, hn, hpd⟩ := gatherFiles_origin h files Kind.funcs name p hp
    obtain ⟨q, rfl, hq⟩ := (mem_declaredNames_funcs h d name).1 hn
    simp only [Decl.addr] at hpd
    subst hpd
    exact ⟨hq, (mem_topLevelDecls files _).1 hd⟩
  refine ⟨?_, hsome, by decide⟩
  constructor
  · intro hnone f hf p hp hname
    obtain ⟨q, hq⟩ := gatherFiles_isSome h files Kind.funcs name (Decl.funcDecl p)
      ((mem_topLevelDecls files _).2 ⟨f, hf, hp⟩)
      ((mem_declaredNames_funcs h _ name).2 ⟨p, rfl, hname⟩)
    have : findFunc name (gatherFiles h files) = some q := hq
    rw [hnone] at this
    exact Option.noConfusion this
  · intro hall
    cases hfind : findFunc name (gatherFiles h files) with
    | none => rfl
    | some p =>
      obtain ⟨hname, f, hf, hp⟩ := hsome p hfind
      exact absurd hname (hall f hf p hp)

/-- C14. Classification: on the tables gathered from any list of files, an
entry of `funcs` is a top-level function declared under its key, an entry of
`types` is a top-level declaration with a type spec named by the key, an entry
of `vars` (of `consts`) is a top-level `var` (`const`) declaration with a
value spec that names the key; and a name is a key of a table exactly when
some top-level declaration declares it with the kind of that table. -/
theorem symbol_index_classification (h : Heap) (files : List File) :
    (∀ n p, (gatherFiles h files).funcs.get? n = some p →
      Decl.funcDecl p ∈ topLevelDecls files ∧ (h.funcDecls p).Name.Name = n) ∧
    (∀ n p, (gatherFiles h files).types.get? n = some p →
      Decl.genDecl p ∈ topLevelDecls files ∧
      ∃ id t, Spec.typeSpec id t ∈ (h.genDecls p).Specs ∧ id.Name = n) ∧
    (∀ n p, (gatherFiles h files).vars.get? n = some p →
      Decl.genDecl p ∈ topLevelDecls files ∧ (h.genDecls p).Tok = Token.VAR ∧
      ∃ names t vs id, Spec.valueSpec names t vs ∈ (h.genDecls p).Specs ∧ id ∈ names ∧
        id.Name = n) ∧
    (∀ n p, (gatherFiles h files).consts.get? n = some p →
      Decl.genDecl p ∈ topLevelDecls files ∧ (h.genDecls p).Tok = Token.CONST ∧
      ∃ names t vs id, Spec.valueSpec names t vs ∈ (h.genDecls p).Specs ∧ id ∈ names ∧
        id.Name = n) ∧
    (∀ k n, (∃ p, ((gatherFiles h files).table k).get? n = some p) ↔
      ∃ d ∈ topLevelDecls files, n ∈ declaredNames h k d) := by
  refine ⟨?_, ?_, ?_, ?_, ?_⟩
  · intro n p hp
    obtain ⟨d, hd, hn, hpd⟩ := gatherFiles_origin h files Kind.funcs n p hp
    obtain ⟨q, rfl, hq⟩ := (mem_declaredNames_funcs h d n).1 hn
    simp only [Decl.addr] at hpd
    subst hpd
    exact ⟨hd, hq⟩
  · intro n p hp
    obtain ⟨d, hd, hn, hpd⟩ := gatherFiles_origin h files Kind.types n p hp
    obtain ⟨q, rfl, s, hs, hns⟩ := declaredNames_genDecl h Kind.types d n (by decide) hn
    simp only [Decl.addr] at hpd
    subst hpd
    obtain ⟨id, t, rfl, hid⟩ := mem_specNames_types _ s n hns
    exact ⟨hd, id, t, hs, hid⟩
  · intro n p hp
    obtain ⟨d, hd, hn, hpd⟩ := gatherFiles_origin h files Kind.vars n p hp
    obtain ⟨q, rfl, s, hs, hns⟩ := declaredNames_genDecl h Kind.vars d n (by decide) hn
    simp only [Decl.addr] at hpd
    subst hpd
    obtain ⟨ht, names, t, vs, id, rfl, hid, hname⟩ := mem_specNames_vars _ s n hns
    exact ⟨hd, ht, names, t, vs, id, hs, hid, hname⟩
  · intro n p hp
    obtain ⟨d, hd, hn, hpd⟩ := gatherFiles_origin h files Kind.consts n p hp
    obtain ⟨q, rfl, s, hs, hns⟩ := declaredNames_genDecl h Kind.consts d n (by decide) hn
    simp only [Decl.addr] at hpd
    subst hpd
    obtain ⟨ht, names, t, vs, id, rfl, hid, hname⟩ := mem_specNames_consts _ s n hns
    exact ⟨hd, ht, names, t, vs, id, hs, hid, hname⟩
  · intro k n
    constructor
    · rintro ⟨p, hp⟩
      obtain ⟨d, hd, hn, _⟩ := gatherFiles_origin h files k n p hp
      exact ⟨d, hd, hn⟩
    · rintro ⟨d, hd, hn⟩
      exact gatherFiles_isSome h files k n d hd hn
/-- C15, as stated, fails on a grouped declaration: with `var ( a = 1; b = 2 )`
followed by `var a = 3`, both declare the variable `a`, but the entry of the
other variable `b` is the grouped declaration, and it is missing when the
grouped declaration is left out. -/
theorem later_wins_counterexample :
    "a" ∈ declaredNames groupHeap Kind.vars (Decl.genDecl 0) ∧
    "a" ∈ declaredNames groupHeap Kind.vars (Decl.genDecl 1) ∧
    ((gatherTopLevelDecls groupHeap { Decls := [Decl.genDecl 0, Decl.genDecl 1] }
        dependencyInfo.empty).table Kind.vars).get? "b" = some 0 ∧
    ((gatherTopLevelDecls groupHeap { Decls := [Decl.genDecl 1] }
        dependencyInfo.empty).table Kind.vars).get? "b" = none ∧
    ¬ (∀ k2 n2, (k2, n2) ≠ (Kind.vars, "a") →
        ((gatherTopLevelDecls groupHeap { Decls := [Decl.genDecl 0, Decl.genDecl 1] }
          dependencyInfo.empty).table k2).get? n2 =
        ((gatherTopLevelDecls groupHeap { Decls := [Decl.genDecl 1] }
          dependencyInfo.empty).table k2).get? n2) :=
  ⟨by decide, by decide, by decide, by decide,
   fun hall => absurd (hall Kind.vars "b" (by decide)) (by decide)⟩

/-- C15, amended. When `d1` and later `d2` declare the name `n` with kind `k`
and no declaration after `d2` does, the entry of `(k, n)` after processing is
`d2`; and the entry of `(k, n)` and of every pair that `d1` does not declare
is the same as when `d1` is left out of the sequence.  The function returns
the tables in every case. -/
theorem later_wins (h : Heap) (l1 l2 l3 : List Decl) (d1 d2 : Decl) (k : Kind) (n : String)
    (info : dependencyInfo)
    (_h1 : n ∈ declaredNames h k d1) (h2 : n ∈ declaredNames h k d2)
    (h3 : ∀ x ∈ l3, n ∉ declaredNames h k x) :
    ((gatherTopLevelDecls h { Decls := l1 ++ d1 :: (l2 ++ d2 :: l3) } info).table k).get? n =
      some d2.addr ∧
    ∀ k2 n2, ((k2 = k ∧ n2 = n) ∨ n2 ∉ declaredNames h k2 d1) →
      ((gatherTopLevelDecls h { Decls := l1 ++ d1 :: (l2 ++ d2 :: l3) } info).table k2).get? n2 =
      ((gatherTopLevelDecls h { Decls := l1 ++ (l2 ++ d2 :: l3) } info).table k2).get? n2 := by
  have hlast : ((gatherTopLevelDecls h { Decls := l1 ++ d1 :: (l2 ++ d2 :: l3) }
      info).table k).get? n = some d2.addr := by
    have hl : l1 ++ d1 :: (l2 ++ d2 :: l3) = (l1 ++ d1 :: l2) ++ d2 :: l3 := by simp
    simp only [gatherTopLevelDecls]
    rw [hl]
    exact gatherDecls_get_last h k n _ d2 l3 info h2 h3
  refine ⟨hlast, ?_⟩
  intro k2 n2 hcase
  rcases hcase with ⟨rfl, rfl⟩ | hnot
  · rw [hlast]
    have hl : l1 ++ (l2 ++ d2 :: l3) = (l1 ++ l2) ++ d2 :: l3 := by simp
    simp only [gatherTopLevelDecls]
    rw [hl]
    exact (gatherDecls_get_last h k2 n2 _ d2 l3 info h2 h3).symm
  · simp only [gatherTopLevelDecls]
    generalize l2 ++ d2 :: l3 = rest
    have e1 : (l1 ++ d1 :: rest).foldl (gatherDecl h) info =
        rest.foldl (gatherDecl h) (gatherDecl h (l1.foldl (gatherDecl h) info) d1) := by
      rw [List.foldl_append, List.foldl_cons]
    have e2 : (l1 ++ rest).foldl (gatherDecl h) info =
        rest.foldl (gatherDecl h) (l1.foldl (gatherDecl h) info) := by
      rw [List.foldl_append]
    rw [e1, e2]
    apply gatherDecls_get_congr
    rw [gatherDecl_get, if_neg hnot]

/-- On `var ( a = 1; b = 2 )` followed by `var a = 3` the entry of the
variable `a` is the later declaration. -/
theorem later_wins_witness :
    ("a" ∈ declaredNames groupHeap Kind.vars (Decl.genDecl 0) ∧
      "a" ∈ declaredNames groupHeap Kind.vars (Decl.genDecl 1)) ∧
    ((gatherTopLevelDecls groupHeap { Decls := [Decl.genDecl 0, Decl.genDecl 1] }
      dependencyInfo.empty).table Kind.vars).get? "a" = some 1 :=
  ⟨by decide,
   (later_wins groupHeap [] [] [] (Decl.genDecl 0) (Decl.genDecl 1) Kind.vars "a"
    dependencyInfo.empty (by decide) (by decide) (by simp)).1⟩

/-- C20. File order independence: when no name is declared with the same kind
by a declaration of each of two files, gathering the files in either order
from the same tables gives tables with the same entry under every key; two
files that both declare a function `F` give different entries for `F` in the
two orders. -/
theorem file_order_independence (h : Heap) (f1 f2 : File) (info : dependencyInfo)
    (hdisj : ∀ d1 ∈ f1.Decls, ∀ d2 ∈ f2.Decls, ∀ k, ∀ n ∈ declaredNames h k d1,
      n ∉ declaredNames h k d2) :
    (∀ k n,
      ((gatherTopLevelDecls h f2 (gatherTopLevelDecls h f1 info)).table k).get? n =
      ((gatherTopLevelDecls h f1 (gatherTopLevelDecls h f2 info)).table k).get? n) ∧
    (gatherTopLevelDecls clashHeap { Decls := [Decl.funcDecl 1] }
        (gatherTopLevelDecls clashHeap { Decls := [Decl.funcDecl 0] }
          dependencyInfo.empty)).funcs.get? "F" ≠
      (gatherTopLevelDecls clashHeap { Decls := [Decl.funcDecl 0] }
        (gatherTopLevelDecls clashHeap { Decls := [Decl.funcDecl 1] }
          dependencyInfo.empty)).funcs.get? "F" := by
  refine ⟨?_, by decide⟩
  intro k n
  simp only [gatherTopLevelDecls]
  by_cases hex : ∃ d1 ∈ f1.Decls, n ∈ declaredNames h k d1
  · obtain ⟨d1, hd1, hn1⟩ := hex
    have h2 : ∀ d ∈ f2.Decls, n ∉ declaredNames h k d := fun d hd =>
      hdisj d1 hd1 d hd k n hn1
    rw [gatherDecls_get_unchanged h k n f2.Decls _ h2]
    apply gatherDecls_get_congr
    rw [gatherDecls_get_unchanged h k n f2.Decls _ h2]
  · have h1 : ∀ d ∈ f1.Decls, n ∉ declaredNames h k d := fun d hd hn => hex ⟨d, hd, hn⟩
    rw [gatherDecls_get_unchanged h k n f1.Decls _ h1]
    apply gatherDecls_get_congr
    rw [gatherDecls_get_unchanged h k n f1.Decls _ h1]

/-- The files `helpers.go` and `helpers2.go` of the example package declare
different names, so the entry of `DoStuff` is the same in both orders. -/
theorem file_order_independence_witness :
    ((gatherTopLevelDecls exampleHeap { Decls := [Decl.funcDecl 1] }
      (gatherTopLevelDecls exampleHeap { Decls := [Decl.funcDecl 0] }
        dependencyInfo.empty)).table Kind.funcs).get? "DoStuff" =
    ((gatherTopLevelDecls exampleHeap { Decls := [Decl.funcDecl 0] }
      (gatherTopLevelDecls exampleHeap { Decls := [Decl.funcDecl 1] }
        dependencyInfo.empty)).table Kind.funcs).get? "DoStuff" :=
  (file_order_independence exampleHeap { Decls := [Decl.funcDecl 0] }
    { Decls := [Decl.funcDecl 1] } dependencyInfo.empty
    (by
      intro d1 hd1 d2 hd2 k
      revert d1 d2
      cases k <;> decide)).1 Kind.funcs "DoStuff"

/-! ## Transitivity and discovery order -/

/-- C19. Transitivity: the closure of `start` returns a list `R`, the closure
of every member `f` of `R` returns a list, and each member of that list is
`start` or a member of `R`. -/
theorem closure_transitive (h : Heap) (info : dependencyInfo) (start : Decl) :
    ∃ R, resolveAllDependencies h start info = some R ∧
      ∀ f ∈ R, ∃ Rf, resolveAllDependencies h f info = some Rf ∧
        ∀ d ∈ Rf, d = start ∨ d ∈ R := by
  obtain ⟨st, hR, hinv, hq⟩ := resolve_final h info start
  refine ⟨st.foundDecls, hR, ?_⟩
  intro f hf
  obtain ⟨stf, hRf, hinvf, _⟩ := resolve_final h info f
  refine ⟨stf.foundDecls, hRf, ?_⟩
  have hnq : ∀ x, x ∉ st.workQueue := by
    intro x; rw [hq]; exact List.not_mem_nil x
  have hchain : ∀ g, Chain h info f g → g ∈ st.declMap := by
    intro g hc
    induction hc with
    | base => exact (hinv.map_eq f).2 (Or.inr hf)
    | step _ hn2 hp ih =>
      exact hinv.closed _ ih (hnq _) _ hn2 _ (Or.inl ⟨_, hp, rfl⟩)
  intro d hd
  obtain ⟨g, n, hc, hn, hreg⟩ := hinvf.reach d hd
  exact (hinv.map_eq d).1 (hinv.closed g (hchain g hc) (hnq g) n hn d hreg)

theorem mem_fresh (cs : List Decl) : ∀ (seen : List Decl) (x : Decl),
    x ∈ fresh seen cs → x ∈ cs ∧ x ∉ seen := by
  induction cs with
  | nil => intro seen x hx; simp [fresh] at hx
  | cons c cs ih =>
    intro seen x hx
    unfold fresh at hx
    split_ifs at hx with hc
    · obtain ⟨h1, h2⟩ := ih seen x hx
      exact ⟨List.mem_cons_of_mem _ h1, h2⟩
    · rcases List.mem_cons.1 hx with rfl | hx
      · exact ⟨List.mem_cons_self _ _, hc⟩
      · obtain ⟨h1, h2⟩ := ih (c :: seen) x hx
        exact ⟨List.mem_cons_of_mem _ h1, fun hs => h2 (List.mem_cons_of_mem _ hs)⟩

theorem visitAll_found_eq (cs : List Decl) : ∀ (st : ResolveState),
    (cs.foldl visit st).foundDecls = st.foundDecls ++ fresh st.declMap cs := by
  induction cs with
  | nil => intro st; simp [fresh]
  | cons c cs ih =>
    intro st
    rw [List.foldl_cons, ih]
    unfold visit
    by_cases hc : c ∈ st.declMap
    · simp only [hc, if_true]
      conv_rhs => unfold fresh
      simp only [hc, if_true]
    · simp only [hc, if_false]
      conv_rhs => unfold fresh
      simp only [hc, if_false, List.append_assoc, List.singleton_append]

theorem visitAll_queue_eq (cs : List Decl) : ∀ (st : ResolveState),
    (cs.foldl visit st).workQueue =
      st.workQueue ++ (fresh st.declMap cs).filter (fun d => d.isFunc) := by
  induction cs with
  | nil => intro st; simp [fresh]
  | cons c cs ih =>
    intro st
    rw [List.foldl_cons, ih]
    unfold visit
    by_cases hc : c ∈ st.declMap
    · simp only [hc, if_true]
      conv_rhs => unfold fresh
      simp only [hc, if_true]
    · simp only [hc, if_false]
      conv_rhs => unfold fresh
      simp only [hc, if_false]
      cases hf : c.isFunc with
      | true => simp [List.filter_cons, hf]
      | false => simp [List.filter_cons, hf]

theorem loop_append (h : Heap) (info : dependencyInfo) :
    ∀ (fuel : Nat) (st st' : ResolveState), resolveLoop h info fuel st = some st' →
      ∃ rest, st'.foundDecls = st.foundDecls ++ rest ∧
        dequeued h info fuel st = st.workQueue ++ rest.filter (fun d => d.isFunc) ∧
        ∀ d ∈ rest, d ∉ st.declMap ∧
          ∃ f, (f ∈ st.workQueue ∨ (f ∈ rest ∧ f.isFunc = true)) ∧
            d ∈ candidates h info f := by
  intro fuel
  induction fuel with
  | zero => intro st st' hr; simp [resolveLoop] at hr
  | succ fuel ih =>
    intro st st' hr
    unfold resolveLoop at hr
    unfold dequeued
    split at hr
    · rename_i hq
      simp only [Option.some.injEq] at hr
      subst hr
      refine ⟨[], by simp, by simp [hq], by simp⟩
    · rename_i d q hq
      obtain ⟨rest1, hf1, hd1, hr1⟩ := ih _ _ hr
      have hfound := visitAll_found_eq (candidates h info d) { st with workQueue := q }
      have hqueue := visitAll_queue_eq (candidates h info d) { st with workQueue := q }
      rw [← resolveStep_eq] at hfound hqueue
      simp only at hfound hqueue
      refine ⟨fresh st.declMap (candidates h info d) ++ rest1, ?_, ?_, ?_⟩
      · rw [hf1, hfound, List.append_assoc]
      · simp only [hq]
        rw [hd1, hqueue, List.filter_append, List.cons_append, List.append_assoc]
      · intro x hx
        rcases List.mem_append.1 hx with hx | hx
        · obtain ⟨hxc, hxs⟩ := mem_fresh _ _ _ hx
          exact ⟨hxs, d, Or.inl (by rw [hq]; exact List.mem_cons_self _ _), hxc⟩
        · obtain ⟨hxs, f, hf, hxc⟩ := hr1 x hx
          refine ⟨?_, f, ?_, hxc⟩
          · intro hm
            apply hxs
            rw [resolveStep_eq, visitAll_declMap]
            exact Or.inl hm
          · rcases hf with hf | ⟨hf, hff⟩
            · rw [hqueue] at hf
              rcases List.mem_append.1 hf with hf | hf
              · left; rw [hq]; exact List.mem_cons_of_mem _ hf
              · rw [List.mem_filter] at hf
                exact Or.inr ⟨List.mem_append_left _ hf.1, hf.2⟩
            · exact Or.inr ⟨List.mem_append_right _ hf, hff⟩

/-- C16. Discovery order: the closure returns a list that begins with the
declarations registered under the dependency names of `start` (names in
occurrence order, tables in the order funcs, types, vars, consts), without
`start` and without repetitions; every later member is not among these, and
is registered under a dependency name of a function of the list; and the
declarations are taken off the work queue in the order `start`, then the
functions of the list in list order. -/
theorem discovery_order (h : Heap) (info : dependencyInfo) (start : Decl) :
    ∃ R rest, resolveAllDependencies h start info = some R ∧
      R = fresh [start] (candidates h info start) ++ rest ∧
      (∀ d ∈ rest, d ∉ candidates h info start ∧
        ∃ f ∈ R, f.isFunc = true ∧ d ∈ candidates h info f) ∧
      (∀ k, dequeued h info (resolveFuel info + k) (resolveInit start) =
        start :: R.filter (fun d => d.isFunc)) := by
  obtain ⟨st, hst⟩ := resolve_terminates h info start
  have hR : resolveAllDependencies h start info = some st.foundDecls := by
    simp [resolveAllDependencies, resolveAllDependenciesFuel, hst]
  -- the first iteration expands `start`
  have hst1 : resolveLoop h info (info.funcs.length + 1)
      (resolveStep h info (resolveInit start) start []) = some st := by
    have : resolveFuel info = info.funcs.length + 1 + 1 := rfl
    rw [this] at hst
    unfold resolveLoop at hst
    simpa [resolveInit] using hst
  obtain ⟨rest, hfound, _, hrest⟩ := loop_append h info _ _ _ hst1
  have hf1 := visitAll_found_eq (candidates h info start)
    { resolveInit start with workQueue := [] }
  have hq1 := visitAll_queue_eq (candidates h info start)
    { resolveInit start with workQueue := [] }
  rw [← resolveStep_eq] at hf1 hq1
  simp only [resolveInit, List.nil_append] at hf1 hq1
  have hRe : st.foundDecls = fresh [start] (candidates h info start) ++ rest := by
    rw [hfound]
    simp only [resolveInit]
    rw [hf1]
  refine ⟨st.foundDecls, rest, hR, hRe, ?_, ?_⟩
  · intro d hd
    obtain ⟨hns, f, hf, hdc⟩ := hrest d hd
    refine ⟨?_, f, ?_, ?_, hdc⟩
    · intro hc
      apply hns
      rw [resolveStep_eq, visitAll_declMap]
      exact Or.inr hc
    · rcases hf with hf | ⟨hf, _⟩
      · simp only [resolveInit] at hf
        rw [hq1, List.mem_filter] at hf
        rw [hRe]
        exact List.mem_append_left _ hf.1
      · rw [hRe]
        exact List.mem_append_right _ hf
    · rcases hf with hf | ⟨_, hff⟩
      · simp only [resolveInit] at hf
        rw [hq1, List.mem_filter] at hf
        exact hf.2
      · exact hff
  · intro k
    have hk := resolveLoop_mono h info _ k _ _ hst
    obtain ⟨rest0, hfound0, hdeq0, _⟩ := loop_append h info _ _ _ hk
    simp only [resolveInit, List.nil_append] at hfound0 hdeq0
    rw [hfound0]
    simpa [resolveInit] using hdeq0

/-! ## Coverage of the local names -/

theorem mem_fieldListNames (fl : FieldList) (fld : Field) (id : Ident)
    (hf : fld ∈ fl.List) (hid : id ∈ fld.Names) : id.Name ∈ fieldListNames (some fl) := by
  simp only [fieldListNames, List.mem_flatMap, List.mem_map]
  exact ⟨fld, hf, id, hid, rfl⟩

theorem mem_locals_of_node (f : FuncDecl) (b : BlockStmt) (node : Node) (n : String)
    (hb : f.Body = some b) (hnode : node ∈ inspectBody b) (hn : n ∈ localsOfNode node) :
    n ∈ getFuncParamsAndLocals f := by
  unfold getFuncParamsAndLocals
  rw [hb]
  apply List.mem_append_right
  rw [List.mem_flatMap]
  exact ⟨node, hnode, hn⟩

/-- C18, as stated, fails on a local type declaration: in
`func H() { type T int }` the declaration statement introduces the name `T`,
and `T` is not in the local set. -/
theorem local_binding_coverage_counterexample :
    declLocalType.Body = some localTypeBody ∧
    "T" ∈ (inspectBody localTypeBody).flatMap specIntroducedNames ∧
    "T" ∉ getFuncParamsAndLocals declLocalType :=
  ⟨rfl, by decide, by decide⟩

/-- C18, amended. The local set of a function contains every parameter name
and every named result name of its signature and, for every statement visited
in the body (at any depth), each identifier on the left of a `:=` assignment
and each name of a value spec (`var` or `const`) of a declaration statement. -/
theorem local_binding_coverage (f : FuncDecl) :
    (∀ fl, f.Typ.Params = some fl → ∀ fld ∈ fl.List, ∀ id ∈ fld.Names,
      id.Name ∈ getFuncParamsAndLocals f) ∧
    (∀ fl, f.Typ.Results = some fl → ∀ fld ∈ fl.List, ∀ id ∈ fld.Names,
      id.Name ∈ getFuncParamsAndLocals f) ∧
    (∀ b, f.Body = some b → ∀ node ∈ inspectBody b,
      (∀ lhs rhs id, node = Node.assignStmt lhs Token.DEFINE rhs → Node.ident id ∈ lhs →
        id.Name ∈ getFuncParamsAndLocals f) ∧
      (∀ d names t vs id, node = Node.declStmt (StmtDecl.genDecl d) →
        Spec.valueSpec names t vs ∈ d.Specs → id ∈ names →
        id.Name ∈ getFuncParamsAndLocals f)) := by
  refine ⟨?_, ?_, ?_⟩
  · intro fl hfl fld hfld id hid
    unfold getFuncParamsAndLocals
    rw [hfl]
    exact List.mem_append_left _ (List.mem_append_left _ (mem_fieldListNames fl fld id hfld hid))
  · intro fl hfl fld hfld id hid
    unfold getFuncParamsAndLocals
    rw [hfl]
    exact List.mem_append_left _ (List.mem_append_right _ (mem_fieldListNames fl fld id hfld hid))
  · intro b hb node hnode
    constructor
    · intro lhs rhs id hnd hid
      apply mem_locals_of_node f b node _ hb hnode
      rw [hnd]
      simp only [localsOfNode, if_true, List.mem_filterMap]
      exact ⟨Node.ident id, hid, rfl⟩
    · intro d names t vs id hnd hspec hid
      apply mem_locals_of_node f b node _ hb hnode
      rw [hnd]
      simp only [localsOfNode, List.mem_flatMap]
      refine ⟨Spec.valueSpec names t vs, hspec, ?_⟩
      simp only [specLocalNames, List.mem_map]
      exact ⟨id, hid, rfl⟩

/-- The parameter, the named result, and the names introduced two blocks deep
by `:=` and by `var` are all collected. -/
theorem local_binding_nested_example :
    getFuncParamsAndLocals declNested = ["p", "r", "x", "y"] := by
  decide

end Fextract
